import Mathlib

/-! OBSERVED_ADDRESS frame codec.

A shallow embedding of `internal/wire/observed_address_frame.go`
(`parseObservedAddressFrame`, `ObservedAddressFrame.Append`,
`ObservedAddressFrame.Length`) together with the library operations it calls.

Conventions of the embedding:

* a byte is a `Fin 256`, a byte slice is a `List Byte`;
* a Go function that can panic returns an `Option`, `none` being the panic;
* Go's `(frame, n, err)` result of the parser is the record `ParseResult`,
  with `frame = none` for a nil pointer and `err = none` for a nil error;
* `uint64` values are natural numbers (the varint primitive refuses everything
  above `2^62 - 1`, so the upper end of `uint64` is never distinguished).
-/

/-- A byte (Go `byte` / `uint8`). -/
abbrev Byte := Fin 256

/-- Go conversion `uint8(n)`: truncation to the low 8 bits. -/
def uint8 (n : Nat) : Byte := ⟨n % 256, Nat.mod_lt n (by decide)⟩

/-- Go conversion `uint16(n)`: truncation to the low 16 bits. -/
def uint16 (n : Nat) : Fin 65536 := ⟨n % 65536, Nat.mod_lt n (by decide)⟩

/-- Go slice expression `b[lo:]`; it panics when `lo > len(b)`. -/
def sliceFrom (b : List Byte) (lo : Nat) : Option (List Byte) :=
  if lo ≤ b.length then some (b.drop lo) else none

/-- Go slice expression `b[:hi]`; it panics when `hi > len(b)`
(capacity is not modelled: the parser only slices below the length). -/
def sliceTo (b : List Byte) (hi : Nat) : Option (List Byte) :=
  if hi ≤ b.length then some (b.take hi) else none

/-- Fixed-size byte array `[n]byte`. -/
abbrev ByteArr (n : Nat) := {l : List Byte // l.length = n}

/-- Go `a := [n]byte{}; copy(a[:], src)`: the first `min n (len src)` bytes of
`src` over a zeroed array. -/
def copyArr (n : Nat) (src : List Byte) : ByteArr n :=
  ⟨(src ++ List.replicate n (0 : Byte)).take n, by simp⟩

/-- The two errors of package `io` that the codec returns. -/
inductive IoError
  | EOF
  | ErrUnexpectedEOF
  deriving DecidableEq, Repr

/-- The error kinds the specification distinguishes. -/
inductive ErrorKind
  | incompleteFrame
  | malformedVarint
  deriving DecidableEq, Repr

/-- Classification of the returned errors: both `io.EOF` and
`io.ErrUnexpectedEOF` report that fewer bytes are available than the field
being read requires. -/
def IoError.kind : IoError → ErrorKind
  | IoError.EOF => ErrorKind.incompleteFrame
  | IoError.ErrUnexpectedEOF => ErrorKind.incompleteFrame

namespace binary

/-- Go `binary.BigEndian.Uint16(b)`: `_ = b[1]` (bounds check), then
`uint16(b[1]) | uint16(b[0])<<8`. -/
def BigEndianUint16 (b : List Byte) : Option (Fin 65536) :=
  match b with
  | b0 :: b1 :: _ => some (uint16 (b1.val ||| (b0.val <<< 8)))
  | _ => none

/-- Go `binary.BigEndian.PutUint16(b, v)` on a fresh `make([]byte, 2)`:
`b[0] = byte(v >> 8); b[1] = byte(v)`. -/
def BigEndianPutUint16 (v : Fin 65536) : List Byte :=
  [uint8 (v.val >>> 8), uint8 v.val]

end binary

namespace quicvarint

def maxVarInt1 : Nat := 63
def maxVarInt2 : Nat := 16383
def maxVarInt4 : Nat := 1073741823
def maxVarInt8 : Nat := 4611686018427387903

/-- Byte `i` of the slice as a number, read after a length check. -/
def byteAt (b : List Byte) (i : Nat) : Nat := (b.getD i 0).val

/-- Big-endian value of the first eight bytes (`binary.BigEndian.Uint64`),
read after a length check. -/
def beUint64 (b : List Byte) : Nat :=
  byteAt b 7 ||| (byteAt b 6 <<< 8) ||| (byteAt b 5 <<< 16) ||| (byteAt b 4 <<< 24) |||
    (byteAt b 3 <<< 32) ||| (byteAt b 2 <<< 40) ||| (byteAt b 1 <<< 48) ||| (byteAt b 0 <<< 56)

/-- Modelled from the spec: `quicvarint.Parse`, the decode operation of the
varint primitive (package `quicvarint` is not among the source files). A
QUIC-style variable-length integer: the top two bits of the first byte give
the width 1, 2, 4 or 8, the remaining bits are the value, big-endian. The
result is `(value, bytesRead, err)`; an empty input gives `io.EOF`, an input
shorter than the announced width gives `io.ErrUnexpectedEOF`. -/
def Parse (b : List Byte) : Nat × Nat × Option IoError :=
  match b with
  | [] => (0, 0, some IoError.EOF)
  | first :: _ =>
    if first.val >>> 6 = 0 then
      (first.val &&& 0x3f, 1, none)
    else if first.val >>> 6 = 1 then
      if b.length < 2 then (0, 0, some IoError.ErrUnexpectedEOF)
      else (byteAt b 1 ||| ((first.val &&& 0x3f) <<< 8), 2, none)
    else if first.val >>> 6 = 2 then
      if b.length < 4 then (0, 0, some IoError.ErrUnexpectedEOF)
      else (byteAt b 3 ||| (byteAt b 2 <<< 8) ||| (byteAt b 1 <<< 16) |||
              ((first.val &&& 0x3f) <<< 24), 4, none)
    else
      if b.length < 8 then (0, 0, some IoError.ErrUnexpectedEOF)
      else (beUint64 b &&& 0x3fffffffffffffff, 8, none)

/-- Modelled from the spec: `quicvarint.Append`, the encode operation of the
varint primitive (package `quicvarint` is not among the source files): the
shortest of the 1, 2, 4 and 8 byte encodings that holds `i`. A value above
`2^62 - 1` does not fit and the primitive panics (`none`). -/
def Append (b : List Byte) (i : Nat) : Option (List Byte) :=
  if i ≤ maxVarInt1 then
    some (b ++ [uint8 i])
  else if i ≤ maxVarInt2 then
    some (b ++ [uint8 ((uint8 (i >>> 8)).val ||| 0x40), uint8 i])
  else if i ≤ maxVarInt4 then
    some (b ++ [uint8 ((uint8 (i >>> 24)).val ||| 0x80), uint8 (i >>> 16),
                uint8 (i >>> 8), uint8 i])
  else if i ≤ maxVarInt8 then
    some (b ++ [uint8 ((uint8 (i >>> 56)).val ||| 0xc0), uint8 (i >>> 48),
                uint8 (i >>> 40), uint8 (i >>> 32), uint8 (i >>> 24),
                uint8 (i >>> 16), uint8 (i >>> 8), uint8 i])
  else none

/-- Modelled from the spec: `quicvarint.Len`, the encoded-length operation of
the varint primitive (package `quicvarint` is not among the source files). A
value above `2^62 - 1` makes the primitive panic (`none`). -/
def Len (i : Nat) : Option Nat :=
  if i ≤ maxVarInt1 then some 1
  else if i ≤ maxVarInt2 then some 2
  else if i ≤ maxVarInt4 then some 4
  else if i ≤ maxVarInt8 then some 8
  else none

/-- Width announced by the first byte of an encoding: `2^(first >> 6)`. -/
def width (first : Byte) : Nat := 2 ^ (first.val >>> 6)

end quicvarint

namespace netip

/-- Go `netip.Addr`: the zero value, an IPv4 address, or an IPv6 address with
a zone (the empty zone is "no zone"). -/
inductive Addr
  | zero
  | ip4 (a : ByteArr 4)
  | ip6 (a : ByteArr 16) (zone : String)
  deriving DecidableEq

/-- Go `netip.AddrFrom4`. -/
def AddrFrom4 (a : ByteArr 4) : Addr := Addr.ip4 a

/-- Go `netip.AddrFrom16`: an IPv6 address without zone; an IPv4-mapped
address is kept as IPv6. -/
def AddrFrom16 (a : ByteArr 16) : Addr := Addr.ip6 a ""

/-- Go `Addr.Is4`. -/
def Addr.Is4 : Addr → Bool
  | Addr.ip4 _ => true
  | _ => false

/-- Go `Addr.Is6`: an IPv6 address, IPv4-mapped ones included. -/
def Addr.Is6 : Addr → Bool
  | Addr.ip6 _ _ => true
  | _ => false

/-- Go `Addr.Is4In6`: an IPv6 address in `::ffff:0:0/96`. -/
def Addr.Is4In6 : Addr → Bool
  | Addr.ip6 a _ => decide (a.val.take 12 = [0, 0, 0, 0, 0, 0, 0, 0, 0, 0, 255, 255])
  | _ => false

/-- Go `Addr.Zone`: the zone of an IPv6 address, empty otherwise. -/
def Addr.Zone : Addr → String
  | Addr.ip6 _ zone => zone
  | _ => ""

/-- Go `Addr.As4`: the 4 bytes of an IPv4 or IPv4-mapped address; it panics
on the zero `Addr` and on any other IPv6 address. -/
def Addr.As4 (ip : Addr) : Option (ByteArr 4) :=
  match ip with
  | Addr.ip4 a => some a
  | Addr.zero => none
  | Addr.ip6 a _ =>
    if ip.Is4In6 then some ⟨a.val.drop 12, by simp [a.property]⟩
    else none

/-- Go `Addr.As16`: the 16-byte form; an IPv4 address becomes IPv4-mapped, the
zone is dropped, the zero `Addr` gives 16 zero bytes. -/
def Addr.As16 (ip : Addr) : ByteArr 16 :=
  match ip with
  | Addr.ip4 a => ⟨[0, 0, 0, 0, 0, 0, 0, 0, 0, 0, 255, 255] ++ a.val, by simp [a.property]⟩
  | Addr.ip6 a _ => a
  | Addr.zero => ⟨List.replicate 16 0, rfl⟩

/-- Go `netip.AddrPort`: an address and a 16-bit port. -/
structure AddrPort where
  ip : Addr
  port : Fin 65536
  deriving DecidableEq

/-- Go `netip.AddrPortFrom`. -/
def AddrPortFrom (ip : Addr) (port : Fin 65536) : AddrPort := ⟨ip, port⟩

/-- Go `AddrPort.Addr`. -/
def AddrPort.Addr (p : AddrPort) : Addr := p.ip

/-- Go `AddrPort.Port`. -/
def AddrPort.Port (p : AddrPort) : Fin 65536 := p.port

end netip

namespace wire

open netip

/-- An ObservedAddressFrame is an OBSERVED_ADDRESS frame. -/
structure ObservedAddressFrame where
  SequenceNumber : Nat
  Address : AddrPort
  deriving DecidableEq

/-- The three results of `parseObservedAddressFrame`. -/
structure ParseResult where
  frame : Option ObservedAddressFrame
  consumed : Int
  err : Option IoError
  deriving DecidableEq

/-- Go `parseObservedAddressFrame(b, typ, _)`. `none` is a runtime panic (a
slice expression out of range). -/
def parseObservedAddressFrame (b : List Byte) (typ : Nat) : Option ParseResult :=
  let startLen : Int := b.length
  -- Check if it's IPv4 (0x9f81a6) or IPv6 (0x9f81a7)
  let isIPv4 : Bool := decide (typ = 0x9f81a6)
  -- the code after the if/else: parse port (2 bytes, network byte order)
  let parsePort : Nat → Addr → List Byte → Option ParseResult :=
    fun sequenceNumber addr b =>
      if b.length < 2 then some ⟨none, 0, some IoError.EOF⟩
      else
        (sliceTo b 2).bind fun p =>
        (binary.BigEndianUint16 p).bind fun port =>
        some ⟨some ⟨sequenceNumber, AddrPortFrom addr port⟩, startLen - b.length + 2, none⟩
  -- Parse sequence number
  match quicvarint.Parse b with
  | (_, _, some err) => some ⟨none, 0, some err⟩
  | (sequenceNumber, bytesRead, none) =>
    (sliceFrom b bytesRead).bind fun b =>
    if isIPv4 then
      -- Parse IPv4 address (4 bytes)
      if b.length < 4 then some ⟨none, 0, some IoError.EOF⟩
      else
        (sliceTo b 4).bind fun b4 =>
        let ipv4Bytes := copyArr 4 b4
        let addr := AddrFrom4 ipv4Bytes
        (sliceFrom b 4).bind fun b => parsePort sequenceNumber addr b
    else
      -- Parse IPv6 address (16 bytes)
      if b.length < 16 then some ⟨none, 0, some IoError.EOF⟩
      else
        (sliceTo b 16).bind fun b16 =>
        let ipv6Bytes := copyArr 16 b16
        let addr := AddrFrom16 ipv6Bytes
        (sliceFrom b 16).bind fun b => parsePort sequenceNumber addr b

/-- Go `(f *ObservedAddressFrame).Append(b, _)`: the result is
`(bytes, err)`; `none` is a panic of the varint primitive or of `As4`. -/
def ObservedAddressFrame.Append (f : ObservedAddressFrame) (b : List Byte) :
    Option (List Byte × Option IoError) :=
  -- Determine frame type based on address type
  let frameType : Nat := if f.Address.Addr.Is4 then 0x9f81a6 else 0x9f81a7
  -- Append frame type
  (quicvarint.Append b frameType).bind fun b =>
  -- Append sequence number
  (quicvarint.Append b f.SequenceNumber).bind fun b =>
  -- Append address
  (if f.Address.Addr.Is4 then
      f.Address.Addr.As4.bind fun ipv4 => some (b ++ ipv4.val)
    else
      some (b ++ f.Address.Addr.As16.val)).bind fun b =>
  -- Append port in network byte order
  let portBytes := binary.BigEndianPutUint16 f.Address.Port
  some (b ++ portBytes, none)

/-- Go `(f *ObservedAddressFrame).Length(_)`: length of a written frame;
`none` is a panic of the varint primitive. -/
def ObservedAddressFrame.Length (f : ObservedAddressFrame) : Option Nat :=
  (quicvarint.Len 0x9f81a6).bind fun l1 =>
  (quicvarint.Len f.SequenceNumber).bind fun l2 =>
  let length := l1 + l2 + 2 -- frame type + sequence number + port
  if f.Address.Addr.Is4 then some (length + 4) -- IPv4 address
  else some (length + 16) -- IPv6 address

/-- The discriminant `Append` selects for a frame. -/
def matchingDiscriminant (f : ObservedAddressFrame) : Nat :=
  if f.Address.Addr.Is4 then 0x9f81a6 else 0x9f81a7

/-- The address bytes `Append` writes: `As4()` of an `Is4` address, `As16()`
of any other. -/
def rawAddr (ip : Addr) : List Byte :=
  match ip with
  | Addr.ip4 a => a.val
  | _ => ip.As16.val

/-- Number of address bytes the parser reads for a discriminant. -/
def addrLen (typ : Nat) : Nat := if typ = 0x9f81a6 then 4 else 16

/-- The address the parser builds from the bytes that follow the sequence
number. -/
def addrOf (typ : Nat) (l : List Byte) : Addr :=
  if typ = 0x9f81a6 then AddrFrom4 (copyArr 4 (l.take 4))
  else AddrFrom16 (copyArr 16 (l.take 16))

/-- The port the parser reads from the two bytes that follow the address. -/
def portOf (l : List Byte) : Fin 65536 :=
  uint16 (quicvarint.byteAt l 1 ||| (quicvarint.byteAt l 0 <<< 8))

/-- The frame of the IPv4 test: 192.168.1.1:8080, sequence number 42. -/
def testFrameIPv4 : ObservedAddressFrame :=
  ⟨42, ⟨Addr.ip4 ⟨[192, 168, 1, 1], rfl⟩, 8080⟩⟩

/-- The frame of the IPv6 test: [2001:db8::1]:8080, sequence number 123. -/
def testFrameIPv6 : ObservedAddressFrame :=
  ⟨123, ⟨Addr.ip6 ⟨[0x20, 0x01, 0x0d, 0xb8, 0, 0, 0, 0, 0, 0, 0, 0, 0, 0, 0, 1], rfl⟩ "", 8080⟩⟩

/-- A frame with the largest sequence number, [2001:db8::1]:443. -/
def maxSeqFrame : ObservedAddressFrame :=
  ⟨2 ^ 62 - 1, ⟨Addr.ip6 ⟨[0x20, 0x01, 0x0d, 0xb8, 0, 0, 0, 0, 0, 0, 0, 0, 0, 0, 0, 1], rfl⟩ "", 443⟩⟩

/-- A frame whose sequence number `2^62` is a `uint64` that the varint
encoding cannot hold, 192.168.1.1:8080. -/
def oversizedFrame : ObservedAddressFrame :=
  ⟨2 ^ 62, ⟨Addr.ip4 ⟨[192, 168, 1, 1], rfl⟩, 8080⟩⟩

/-- A frame with the zoned address [fe80::1%eth0]:80, sequence number 1. -/
def zonedFrame : ObservedAddressFrame :=
  ⟨1, ⟨Addr.ip6 ⟨[0xfe, 0x80, 0, 0, 0, 0, 0, 0, 0, 0, 0, 0, 0, 0, 0, 1], rfl⟩ "eth0", 80⟩⟩

end wire

open wire netip

/-! ## Bit-level arithmetic -/

theorem or_shl_eq_add (a b k : Nat) (h : a < 2 ^ k) : a ||| (b <<< k) = a + b * 2 ^ k := by
  rw [Nat.shiftLeft_eq, Nat.lor_comm, Nat.mul_comm b, ← Nat.mul_add_lt_is_or h, Nat.add_comm]

theorem or_bit_eq_add (a k : Nat) (h : a < 2 ^ k) : a ||| 2 ^ k = a + 2 ^ k := by
  have := or_shl_eq_add a 1 k h
  rwa [Nat.shiftLeft_eq, Nat.one_mul] at this

theorem and_3f (x : Nat) : x &&& 0x3f = x % 64 :=
  Nat.and_pow_two_sub_one_eq_mod x 6

theorem and_mask62 (x : Nat) : x &&& 0x3fffffffffffffff = x % 4611686018427387904 :=
  Nat.and_pow_two_sub_one_eq_mod x 62

theorem or_40 (a : Nat) (h : a < 64) : a ||| 0x40 = a + 64 := or_bit_eq_add a 6 h

theorem or_80 (a : Nat) (h : a < 128) : a ||| 0x80 = a + 128 := or_bit_eq_add a 7 h

theorem or_c0 (a : Nat) (h : a < 64) : a ||| 0xc0 = a + 192 := by
  have h1 : a ||| 0xc0 = (a ||| 0x40) ||| 0x80 := by
    rw [Nat.lor_assoc]; rfl
  rw [h1, or_40 a h, or_80 _ (by omega)]

/-! ## The varint primitive -/

theorem uint8_val (n : Nat) : (uint8 n).val = n % 256 := rfl

theorem uint16_val (n : Nat) : (uint16 n).val = n % 65536 := rfl

theorem quicvarint.Append_eq_append (b : List Byte) (i : Nat) :
    quicvarint.Append b i = (quicvarint.Append [] i).map fun e => b ++ e := by
  unfold quicvarint.Append
  split_ifs <;> simp

theorem shr6 (x : Nat) : x >>> 6 = x / 64 := Nat.shiftRight_eq_div_pow x 6

theorem quicvarint.Parse_w1 (first : Byte) (t : List Byte) (h : first.val / 64 = 0) :
    quicvarint.Parse (first :: t) = (first.val % 64, 1, none) := by
  simp [quicvarint.Parse, shr6, h, and_3f]

theorem quicvarint.Parse_w2 (first b1 : Byte) (t : List Byte) (h : first.val / 64 = 1) :
    quicvarint.Parse (first :: b1 :: t) = (b1.val + first.val % 64 * 256, 2, none) := by
  have hb : b1.val < 2 ^ 8 := b1.isLt
  simp [quicvarint.Parse, shr6, h, and_3f, quicvarint.byteAt, or_shl_eq_add _ _ 8 hb]

theorem quicvarint.Parse_w4 (first b1 b2 b3 : Byte) (t : List Byte) (h : first.val / 64 = 2) :
    quicvarint.Parse (first :: b1 :: b2 :: b3 :: t) =
      (b3.val + b2.val * 256 + b1.val * 65536 + first.val % 64 * 16777216, 4, none) := by
  have h3 : b3.val < 2 ^ 8 := b3.isLt
  have h2 : b3.val + b2.val * 2 ^ 8 < 2 ^ 16 := by have := b2.isLt; omega
  have h1 : b3.val + b2.val * 2 ^ 8 + b1.val * 2 ^ 16 < 2 ^ 24 := by have := b1.isLt; omega
  simp only [quicvarint.Parse, shr6, h, and_3f, quicvarint.byteAt, List.getD_cons_succ,
    List.getD_cons_zero, List.length_cons]
  rw [or_shl_eq_add _ _ 8 h3, or_shl_eq_add _ _ 16 h2, or_shl_eq_add _ _ 24 h1]
  simp

theorem quicvarint.Parse_w8 (b0 b1 b2 b3 b4 b5 b6 b7 : Byte) (t : List Byte)
    (h : b0.val / 64 = 3) :
    quicvarint.Parse (b0 :: b1 :: b2 :: b3 :: b4 :: b5 :: b6 :: b7 :: t) =
      ((b7.val + b6.val * 2 ^ 8 + b5.val * 2 ^ 16 + b4.val * 2 ^ 24 + b3.val * 2 ^ 32 +
          b2.val * 2 ^ 40 + b1.val * 2 ^ 48 + b0.val * 2 ^ 56) % 4611686018427387904,
        8, none) := by
  have h7 : b7.val < 2 ^ 8 := b7.isLt
  have h6 : b7.val + b6.val * 2 ^ 8 < 2 ^ 16 := by have := b6.isLt; omega
  have h5 : b7.val + b6.val * 2 ^ 8 + b5.val * 2 ^ 16 < 2 ^ 24 := by have := b5.isLt; omega
  have h4 : b7.val + b6.val * 2 ^ 8 + b5.val * 2 ^ 16 + b4.val * 2 ^ 24 < 2 ^ 32 := by
    have := b4.isLt; omega
  have h3 : b7.val + b6.val * 2 ^ 8 + b5.val * 2 ^ 16 + b4.val * 2 ^ 24 + b3.val * 2 ^ 32
      < 2 ^ 40 := by have := b3.isLt; omega
  have h2 : b7.val + b6.val * 2 ^ 8 + b5.val * 2 ^ 16 + b4.val * 2 ^ 24 + b3.val * 2 ^ 32 +
      b2.val * 2 ^ 40 < 2 ^ 48 := by have := b2.isLt; omega
  have h1 : b7.val + b6.val * 2 ^ 8 + b5.val * 2 ^ 16 + b4.val * 2 ^ 24 + b3.val * 2 ^ 32 +
      b2.val * 2 ^ 40 + b1.val * 2 ^ 48 < 2 ^ 56 := by have := b1.isLt; omega
  simp only [quicvarint.Parse, shr6, h, quicvarint.beUint64, quicvarint.byteAt,
    List.getD_cons_succ, List.getD_cons_zero, List.length_cons, and_mask62]
  rw [or_shl_eq_add _ _ 8 h7, or_shl_eq_add _ _ 16 h6, or_shl_eq_add _ _ 24 h5,
    or_shl_eq_add _ _ 32 h4, or_shl_eq_add _ _ 40 h3, or_shl_eq_add _ _ 48 h2,
    or_shl_eq_add _ _ 56 h1]
  simp

theorem quicvarint.Parse_Append (i : Nat) (h : i ≤ quicvarint.maxVarInt8) (rest : List Byte) :
    ∃ enc w, quicvarint.Append [] i = some enc ∧ quicvarint.Len i = some w ∧
      enc.length = w ∧ quicvarint.Parse (enc ++ rest) = (i, w, none) := by
  unfold quicvarint.maxVarInt8 at h
  by_cases h1 : i ≤ quicvarint.maxVarInt1
  · refine ⟨[uint8 i], 1, by simp [quicvarint.Append, h1], by simp [quicvarint.Len, h1], rfl, ?_⟩
    unfold quicvarint.maxVarInt1 at h1
    rw [List.singleton_append, quicvarint.Parse_w1 _ _ (by rw [uint8_val]; omega), uint8_val]
    congr 1; omega
  by_cases h2 : i ≤ quicvarint.maxVarInt2
  · refine ⟨[uint8 ((uint8 (i >>> 8)).val ||| 0x40), uint8 i], 2,
      by simp [quicvarint.Append, h1, h2], by simp [quicvarint.Len, h1, h2], rfl, ?_⟩
    unfold quicvarint.maxVarInt1 at h1
    unfold quicvarint.maxVarInt2 at h2
    have e : (uint8 ((uint8 (i >>> 8)).val ||| 0x40)).val = i / 256 + 64 := by
      rw [uint8_val, uint8_val, Nat.shiftRight_eq_div_pow, or_40 _ (by omega)]; omega
    rw [List.cons_append, List.cons_append, List.nil_append,
      quicvarint.Parse_w2 _ _ _ (by rw [e]; omega), e, uint8_val]
    congr 1; omega
  by_cases h4 : i ≤ quicvarint.maxVarInt4
  · refine ⟨[uint8 ((uint8 (i >>> 24)).val ||| 0x80), uint8 (i >>> 16), uint8 (i >>> 8),
      uint8 i], 4, by simp [quicvarint.Append, h1, h2, h4],
      by simp [quicvarint.Len, h1, h2, h4], rfl, ?_⟩
    unfold quicvarint.maxVarInt2 at h2
    unfold quicvarint.maxVarInt4 at h4
    have e : (uint8 ((uint8 (i >>> 24)).val ||| 0x80)).val = i / 16777216 + 128 := by
      rw [uint8_val, uint8_val, Nat.shiftRight_eq_div_pow, or_80 _ (by omega)]; omega
    simp only [List.cons_append, List.nil_append]
    rw [quicvarint.Parse_w4 _ _ _ _ _ (by rw [e]; omega), e]
    simp only [uint8_val, Nat.shiftRight_eq_div_pow]
    congr 1; omega
  · refine ⟨[uint8 ((uint8 (i >>> 56)).val ||| 0xc0), uint8 (i >>> 48), uint8 (i >>> 40),
      uint8 (i >>> 32), uint8 (i >>> 24), uint8 (i >>> 16), uint8 (i >>> 8), uint8 i], 8,
      by simp [quicvarint.Append, h1, h2, h4, quicvarint.maxVarInt8, h],
      by simp [quicvarint.Len, h1, h2, h4, quicvarint.maxVarInt8, h], rfl, ?_⟩
    unfold quicvarint.maxVarInt4 at h4
    have e : (uint8 ((uint8 (i >>> 56)).val ||| 0xc0)).val = i / 72057594037927936 + 192 := by
      rw [uint8_val, uint8_val, Nat.shiftRight_eq_div_pow, or_c0 _ (by omega)]; omega
    simp only [List.cons_append, List.nil_append]
    rw [quicvarint.Parse_w8 _ _ _ _ _ _ _ _ _ (by rw [e]; omega), e]
    simp only [uint8_val, Nat.shiftRight_eq_div_pow]
    congr 1; omega

theorem quicvarint.width_cases (first : Byte) :
    (first.val / 64 = 0 ∧ quicvarint.width first = 1) ∨
    (first.val / 64 = 1 ∧ quicvarint.width first = 2) ∨
    (first.val / 64 = 2 ∧ quicvarint.width first = 4) ∨
    (first.val / 64 = 3 ∧ quicvarint.width first = 8) := by
  have h : first.val / 64 < 4 := by have := first.isLt; omega
  unfold quicvarint.width
  rw [shr6]
  generalize first.val / 64 = q at h ⊢
  interval_cases q <;> simp

theorem quicvarint.Parse_nil : quicvarint.Parse [] = (0, 0, some IoError.EOF) := rfl

theorem quicvarint.Parse_short (first : Byte) (t : List Byte)
    (h : (first :: t).length < quicvarint.width first) :
    quicvarint.Parse (first :: t) = (0, 0, some IoError.ErrUnexpectedEOF) := by
  rcases quicvarint.width_cases first with ⟨hq, hw⟩ | ⟨hq, hw⟩ | ⟨hq, hw⟩ | ⟨hq, hw⟩ <;>
    rw [hw] at h <;> simp only [List.length_cons] at h
  · omega
  · have : t.length + 1 < 2 := h
    simp [quicvarint.Parse, shr6, hq, this]
  · have : t.length + 1 < 4 := h
    simp [quicvarint.Parse, shr6, hq, this]
  · have : t.length + 1 < 8 := h
    simp [quicvarint.Parse, shr6, hq, this]

theorem quicvarint.byteAt_lt (b : List Byte) (i : Nat) : quicvarint.byteAt b i < 2 ^ 8 :=
  (b.getD i 0).isLt

theorem quicvarint.Parse_ok (first : Byte) (t : List Byte)
    (h : quicvarint.width first ≤ (first :: t).length) :
    ∃ v, quicvarint.Parse (first :: t) = (v, quicvarint.width first, none) ∧
      v ≤ quicvarint.maxVarInt8 := by
  have hf := first.isLt
  rcases quicvarint.width_cases first with ⟨hq, hw⟩ | ⟨hq, hw⟩ | ⟨hq, hw⟩ | ⟨hq, hw⟩ <;>
    rw [hw] at h ⊢ <;> simp only [List.length_cons] at h
  · refine ⟨first.val &&& 0x3f, by simp [quicvarint.Parse, shr6, hq], ?_⟩
    rw [and_3f]; unfold quicvarint.maxVarInt8; omega
  · have hl : ¬ (t.length + 1 < 2) := by omega
    refine ⟨quicvarint.byteAt (first :: t) 1 ||| ((first.val &&& 0x3f) <<< 8),
      by simp [quicvarint.Parse, shr6, hq, hl], ?_⟩
    have h1 := quicvarint.byteAt_lt (first :: t) 1
    rw [and_3f, or_shl_eq_add _ _ 8 h1]; unfold quicvarint.maxVarInt8; omega
  · have hl : ¬ (t.length + 1 < 4) := by omega
    refine ⟨quicvarint.byteAt (first :: t) 3 ||| (quicvarint.byteAt (first :: t) 2 <<< 8) |||
      (quicvarint.byteAt (first :: t) 1 <<< 16) ||| ((first.val &&& 0x3f) <<< 24),
      by simp [quicvarint.Parse, shr6, hq, hl], ?_⟩
    have h3 := quicvarint.byteAt_lt (first :: t) 3
    have h2 := quicvarint.byteAt_lt (first :: t) 2
    have h1 := quicvarint.byteAt_lt (first :: t) 1
    rw [and_3f, or_shl_eq_add _ _ 8 h3, or_shl_eq_add _ _ 16 (by omega),
      or_shl_eq_add _ _ 24 (by omega)]
    unfold quicvarint.maxVarInt8; omega
  · have hl : ¬ (t.length + 1 < 8) := by omega
    refine ⟨quicvarint.beUint64 (first :: t) &&& 0x3fffffffffffffff,
      by simp [quicvarint.Parse, shr6, hq, hl], ?_⟩
    rw [and_mask62]; unfold quicvarint.maxVarInt8; omega

/-! ## The parser, case by case -/

theorem wire.addrLen_cases (typ : Nat) :
    (typ = 0x9f81a6 ∧ wire.addrLen typ = 4) ∨ (typ ≠ 0x9f81a6 ∧ wire.addrLen typ = 16) := by
  unfold wire.addrLen
  by_cases h : typ = 0x9f81a6 <;> simp [h]

theorem binary.BigEndianUint16_take (l : List Byte) (h : 2 ≤ l.length) :
    binary.BigEndianUint16 (l.take 2) = some (wire.portOf l) := by
  match l, h with
  | b0 :: b1 :: t, _ => simp [binary.BigEndianUint16, wire.portOf, quicvarint.byteAt]

theorem wire.parse_of_err (b : List Byte) (typ v w : Nat) (e : IoError)
    (hP : quicvarint.Parse b = (v, w, some e)) :
    parseObservedAddressFrame b typ = some ⟨none, 0, some e⟩ := by
  simp [parseObservedAddressFrame, hP]

theorem wire.parse_of_Parse (b : List Byte) (typ v w : Nat)
    (hP : quicvarint.Parse b = (v, w, none)) (hw : w ≤ b.length) :
    parseObservedAddressFrame b typ =
      if b.length < w + addrLen typ + 2 then some ⟨none, 0, some IoError.EOF⟩
      else some ⟨some ⟨v, AddrPortFrom (addrOf typ (b.drop w))
          (portOf (b.drop (w + addrLen typ)))⟩, ((w + addrLen typ + 2 : Nat) : Int), none⟩ := by
  rcases wire.addrLen_cases typ with ⟨ht, ha⟩ | ⟨ht, ha⟩
  · rw [ha]
    simp only [parseObservedAddressFrame, hP, sliceFrom, sliceTo, hw, if_true, Option.some_bind,
      ht, decide_True, List.length_drop]
    by_cases h1 : b.length - w < 4
    · have : b.length < w + 4 + 2 := by omega
      simp [h1, this]
    · have h4 : 4 ≤ b.length - w := by omega
      simp only [h1, if_false, h4, if_true, Option.some_bind, List.length_drop]
      by_cases h2 : b.length - w - 4 < 2
      · have : b.length < w + 4 + 2 := by omega
        simp [h2, this]
      · have h5 : 2 ≤ b.length - w - 4 := by omega
        have : ¬ b.length < w + 4 + 2 := by omega
        have hl : 2 ≤ (List.drop (w + 4) b).length := by
          simp only [List.length_drop]; omega
        simp only [h2, if_false, h5, if_true, Option.some_bind, this, addrOf, List.drop_drop,
          binary.BigEndianUint16_take _ hl, ht]
        have hc : (b.length : Int) - ((b.length - w - 4 : Nat) : Int) + 2 =
            ((w + 4 + 2 : Nat) : Int) := by omega
        simp [hc]
  · rw [ha]
    simp only [parseObservedAddressFrame, hP, sliceFrom, sliceTo, hw, if_true, Option.some_bind,
      ht, decide_False, List.length_drop]
    by_cases h1 : b.length - w < 16
    · have : b.length < w + 16 + 2 := by omega
      simp [h1, this]
    · have h4 : 16 ≤ b.length - w := by omega
      simp only [h1, if_false, h4, if_true, Option.some_bind, List.length_drop]
      by_cases h2 : b.length - w - 16 < 2
      · have : b.length < w + 16 + 2 := by omega
        simp [h2, this]
      · have h5 : 2 ≤ b.length - w - 16 := by omega
        have : ¬ b.length < w + 16 + 2 := by omega
        have hl : 2 ≤ (List.drop (w + 16) b).length := by
          simp only [List.length_drop]; omega
        simp only [h2, if_false, h5, if_true, Option.some_bind, this, addrOf, List.drop_drop,
          binary.BigEndianUint16_take _ hl, ht]
        have hc : (b.length : Int) - ((b.length - w - 16 : Nat) : Int) + 2 =
            ((w + 16 + 2 : Nat) : Int) := by omega
        simp [hc]

/-! ## The serialiser -/

theorem quicvarint.Append_disc4 (b : List Byte) :
    quicvarint.Append b 0x9f81a6 = some (b ++ [0x80, 0x9f, 0x81, 0xa6]) := by
  simp [quicvarint.Append, quicvarint.maxVarInt1, quicvarint.maxVarInt2, quicvarint.maxVarInt4]
  decide

theorem quicvarint.Append_disc6 (b : List Byte) :
    quicvarint.Append b 0x9f81a7 = some (b ++ [0x80, 0x9f, 0x81, 0xa7]) := by
  simp [quicvarint.Append, quicvarint.maxVarInt1, quicvarint.maxVarInt2, quicvarint.maxVarInt4]
  decide

theorem quicvarint.Append_matching (f : ObservedAddressFrame) :
    ∃ d, quicvarint.Append [] (matchingDiscriminant f) = some d ∧ d.length = 4 ∧
      ∀ b, quicvarint.Append b (matchingDiscriminant f) = some (b ++ d) := by
  unfold matchingDiscriminant
  by_cases h : f.Address.Addr.Is4 = true
  · exact ⟨[0x80, 0x9f, 0x81, 0xa6], by rw [if_pos h]; exact quicvarint.Append_disc4 [], rfl,
      fun b => by rw [if_pos h]; exact quicvarint.Append_disc4 b⟩
  · exact ⟨[0x80, 0x9f, 0x81, 0xa7], by rw [if_neg h]; exact quicvarint.Append_disc6 [], rfl,
      fun b => by rw [if_neg h]; exact quicvarint.Append_disc6 b⟩

theorem quicvarint.Append_enc (i : Nat) (h : i ≤ quicvarint.maxVarInt8) :
    ∃ enc, quicvarint.Append [] i = some enc ∧ quicvarint.Len i = some enc.length ∧
      (∀ b, quicvarint.Append b i = some (b ++ enc)) ∧
      (∀ rest, quicvarint.Parse (enc ++ rest) = (i, enc.length, none)) := by
  obtain ⟨enc, w, h1, h2, h3, -⟩ := quicvarint.Parse_Append i h []
  refine ⟨enc, h1, by rw [h2, h3], fun b => by rw [quicvarint.Append_eq_append, h1]; rfl, ?_⟩
  intro rest
  obtain ⟨enc', w', h1', -, h3', h4'⟩ := quicvarint.Parse_Append i h rest
  rw [h1] at h1'
  cases h1'
  rw [h4', h3']

theorem wire.rawAddr_length (ip : Addr) : (rawAddr ip).length = if ip.Is4 then 4 else 16 := by
  cases ip with
  | zero => simp [rawAddr, Addr.Is4, (Addr.zero).As16.property]
  | ip4 a => simp [rawAddr, Addr.Is4, a.property]
  | ip6 a z => simp [rawAddr, Addr.Is4, (Addr.ip6 a z).As16.property]

theorem wire.Append_spec (f : ObservedAddressFrame)
    (hs : f.SequenceNumber ≤ quicvarint.maxVarInt8) :
    ∃ d enc, quicvarint.Append [] (matchingDiscriminant f) = some d ∧ d.length = 4 ∧
      quicvarint.Append [] f.SequenceNumber = some enc ∧
      quicvarint.Len f.SequenceNumber = some enc.length ∧
      (∀ rest, quicvarint.Parse (enc ++ rest) = (f.SequenceNumber, enc.length, none)) ∧
      ∀ b, f.Append b = some (b ++ d ++ enc ++ rawAddr f.Address.Addr ++
        binary.BigEndianPutUint16 f.Address.Port, none) := by
  obtain ⟨d, hd1, hd2, hd3⟩ := quicvarint.Append_matching f
  obtain ⟨enc, he1, he2, he3, he4⟩ := quicvarint.Append_enc f.SequenceNumber hs
  refine ⟨d, enc, hd1, hd2, he1, he2, he4, ?_⟩
  intro b
  have hd3b := hd3 b
  unfold matchingDiscriminant at hd3b
  unfold ObservedAddressFrame.Append
  simp only [hd3b, Option.some_bind, he3]
  cases hip : f.Address.Addr with
  | zero => simp [rawAddr, Addr.Is4]
  | ip4 a => simp [rawAddr, Addr.Is4, Addr.As4]
  | ip6 a z => simp [rawAddr, Addr.Is4]

/-! ## Serialise, then parse -/

theorem wire.portOf_Put (v : Fin 65536) (t : List Byte) :
    portOf (binary.BigEndianPutUint16 v ++ t) = v := by
  have hv := v.isLt
  apply Fin.ext
  simp only [portOf, binary.BigEndianPutUint16, quicvarint.byteAt, List.cons_append,
    List.getD_cons_succ, List.getD_cons_zero, uint16_val, uint8_val,
    Nat.shiftRight_eq_div_pow]
  have h8 : v.val % 256 < 2 ^ 8 := by omega
  rw [or_shl_eq_add _ _ 8 h8]
  omega

theorem copyArr_take_append (n : Nat) (a : ByteArr n) (t : List Byte) :
    copyArr n ((a.val ++ t).take n) = a := by
  apply Subtype.ext
  simp only [copyArr]
  rw [List.take_left' a.property, List.take_left' a.property]

theorem wire.rawAddr_eq_As16 (ip : Addr) (h : ip.Is4 = false) : rawAddr ip = ip.As16.val := by
  cases ip <;> simp_all [rawAddr, Addr.Is4]

theorem wire.addrOf_rawAddr (ip : Addr) (t : List Byte) :
    addrOf (if ip.Is4 then 0x9f81a6 else 0x9f81a7) (rawAddr ip ++ t) =
      if ip.Is4 then ip else AddrFrom16 ip.As16 := by
  cases ip with
  | ip4 a => simp only [Addr.Is4, if_true, addrOf, rawAddr, AddrFrom4, copyArr_take_append]
  | zero =>
    simp only [Addr.Is4, Bool.false_eq_true, if_false, addrOf, Nat.reduceEqDiff,
      wire.rawAddr_eq_As16 Addr.zero rfl, copyArr_take_append]
  | ip6 a z =>
    simp only [Addr.Is4, Bool.false_eq_true, if_false, addrOf, Nat.reduceEqDiff,
      wire.rawAddr_eq_As16 (Addr.ip6 a z) rfl, copyArr_take_append]

theorem wire.addrLen_matching (f : ObservedAddressFrame) :
    addrLen (matchingDiscriminant f) = (rawAddr f.Address.Addr).length := by
  rw [wire.rawAddr_length]
  unfold addrLen matchingDiscriminant
  by_cases h : f.Address.Addr.Is4 = true <;> simp [h]

theorem wire.roundtrip_spec (f : ObservedAddressFrame)
    (hs : f.SequenceNumber ≤ quicvarint.maxVarInt8) (t : List Byte) :
    ∃ d enc, d.length = 4 ∧ quicvarint.Len f.SequenceNumber = some enc.length ∧
      (∀ rest, quicvarint.Parse (enc ++ rest) = (f.SequenceNumber, enc.length, none)) ∧
      f.Append [] = some (d ++ enc ++ rawAddr f.Address.Addr ++
        binary.BigEndianPutUint16 f.Address.Port, none) ∧
      parseObservedAddressFrame
          (enc ++ rawAddr f.Address.Addr ++ binary.BigEndianPutUint16 f.Address.Port ++ t)
          (matchingDiscriminant f) =
        some ⟨some ⟨f.SequenceNumber, AddrPortFrom
            (if f.Address.Addr.Is4 then f.Address.Addr else AddrFrom16 f.Address.Addr.As16)
            f.Address.Port⟩,
          ((enc.length + (rawAddr f.Address.Addr).length + 2 : Nat) : Int), none⟩ := by
  obtain ⟨d, enc, -, hd, -, hlen, hparse, happ⟩ := wire.Append_spec f hs
  refine ⟨d, enc, hd, hlen, hparse, by simpa using happ [], ?_⟩
  have hP := hparse (rawAddr f.Address.Addr ++ binary.BigEndianPutUint16 f.Address.Port ++ t)
  rw [← List.append_assoc, ← List.append_assoc] at hP
  rw [wire.parse_of_Parse _ _ _ _ hP (by simp), wire.addrLen_matching]
  have hlt : ¬ (enc ++ rawAddr f.Address.Addr ++ binary.BigEndianPutUint16 f.Address.Port
      ++ t).length < enc.length + (rawAddr f.Address.Addr).length + 2 := by
    simp [binary.BigEndianPutUint16]; omega
  rw [if_neg hlt]
  have h1 : List.drop enc.length (enc ++ rawAddr f.Address.Addr ++
      binary.BigEndianPutUint16 f.Address.Port ++ t) =
      rawAddr f.Address.Addr ++ (binary.BigEndianPutUint16 f.Address.Port ++ t) := by
    rw [List.append_assoc, List.append_assoc, List.drop_left]
  have h2 : List.drop (enc.length + (rawAddr f.Address.Addr).length) (enc ++
      rawAddr f.Address.Addr ++ binary.BigEndianPutUint16 f.Address.Port ++ t) =
      binary.BigEndianPutUint16 f.Address.Port ++ t := by
    rw [List.append_assoc, ← List.length_append, List.drop_left]
  rw [h1, h2, wire.portOf_Put]
  unfold matchingDiscriminant
  rw [wire.addrOf_rawAddr]

/-! ## The parser on an arbitrary input -/

theorem wire.parse_nil (typ : Nat) :
    parseObservedAddressFrame [] typ = some ⟨none, 0, some IoError.EOF⟩ :=
  wire.parse_of_err [] typ 0 0 IoError.EOF quicvarint.Parse_nil

theorem wire.parse_cons (first : Byte) (t : List Byte) (typ : Nat) :
    parseObservedAddressFrame (first :: t) typ =
      if (first :: t).length < quicvarint.width first then
        some ⟨none, 0, some IoError.ErrUnexpectedEOF⟩
      else if (first :: t).length < quicvarint.width first + addrLen typ + 2 then
        some ⟨none, 0, some IoError.EOF⟩
      else
        some ⟨some ⟨(quicvarint.Parse (first :: t)).1,
            AddrPortFrom (addrOf typ ((first :: t).drop (quicvarint.width first)))
              (portOf ((first :: t).drop (quicvarint.width first + addrLen typ)))⟩,
          ((quicvarint.width first + addrLen typ + 2 : Nat) : Int), none⟩ := by
  by_cases h : (first :: t).length < quicvarint.width first
  · rw [if_pos h]
    exact wire.parse_of_err _ typ 0 0 _ (quicvarint.Parse_short first t h)
  · rw [if_neg h]
    obtain ⟨v, hv, -⟩ := quicvarint.Parse_ok first t (by omega)
    rw [wire.parse_of_Parse _ typ _ _ hv (by omega), hv]

theorem quicvarint.width_of_Parse (first : Byte) (t : List Byte) (v w : Nat)
    (h : quicvarint.Parse (first :: t) = (v, w, none)) : quicvarint.width first = w := by
  by_cases hl : (first :: t).length < quicvarint.width first
  · rw [quicvarint.Parse_short first t hl] at h
    simp at h
  · obtain ⟨v', hv, -⟩ := quicvarint.Parse_ok first t (by omega)
    rw [hv] at h
    simp only [Prod.mk.injEq] at h
    exact h.2.1

theorem wire.parse_total (b : List Byte) (typ : Nat) :
    ∃ r, parseObservedAddressFrame b typ = some r ∧
      ((∃ f, r.frame = some f ∧ 0 < r.consumed ∧ r.err = none ∧
          r.consumed ≤ (b.length : Int)) ∨
       (r.frame = none ∧ r.consumed = 0 ∧ ∃ e, r.err = some e)) := by
  cases b with
  | nil => exact ⟨_, wire.parse_nil typ, Or.inr ⟨rfl, rfl, _, rfl⟩⟩
  | cons first t =>
    rw [wire.parse_cons]
    split_ifs with h1 h2
    · exact ⟨_, rfl, Or.inr ⟨rfl, rfl, _, rfl⟩⟩
    · exact ⟨_, rfl, Or.inr ⟨rfl, rfl, _, rfl⟩⟩
    · refine ⟨_, rfl, Or.inl ⟨_, rfl, ?_, rfl, ?_⟩⟩
      · show (0 : Int) < ((quicvarint.width first + addrLen typ + 2 : Nat) : Int)
        omega
      · show ((quicvarint.width first + addrLen typ + 2 : Nat) : Int) ≤ _
        omega

/-! ## The claims -/

theorem quicvarint.le_max_iff (i : Nat) : i ≤ 2 ^ 62 - 1 ↔ i ≤ quicvarint.maxVarInt8 := by
  unfold quicvarint.maxVarInt8; norm_num

theorem sliceFrom_append_left (d l : List Byte) :
    sliceFrom (d ++ l) d.length = some l := by
  simp [sliceFrom]

theorem wire.append_body (d enc raw port : List Byte) :
    d ++ enc ++ raw ++ port = d ++ (enc ++ raw ++ port ++ []) := by simp

/-- Claim C1, as amended (round trip): for every frame whose SequenceNumber is
at most `2^62 - 1` and whose address is a 4-byte IP address (`Is4`) or a
16-byte IP address without zone (`Is6` with an empty `Zone`), with any port,
`Append(nil, f)` returns a nil error, and `parseObservedAddressFrame` applied
to its bytes after the first four, with the discriminant matching the family
(`0x9f81a6` for the 4-byte, `0x9f81a7` for the 16-byte address), returns no
error and a frame whose SequenceNumber and Address are those of `f`. -/
theorem parse_Append_round_trip (f : ObservedAddressFrame)
    (hs : f.SequenceNumber ≤ 2 ^ 62 - 1)
    (ha : f.Address.Addr.Is4 = true ∨
      (f.Address.Addr.Is6 = true ∧ f.Address.Addr.Zone = "")) :
    ∃ data body n parsed,
      f.Append [] = some (data, none) ∧ sliceFrom data 4 = some body ∧
      parseObservedAddressFrame body (if f.Address.Addr.Is4 then 0x9f81a6 else 0x9f81a7) =
        some ⟨some parsed, n, none⟩ ∧
      (f.Address.Addr.Is4 = true →
        (if f.Address.Addr.Is4 then 0x9f81a6 else 0x9f81a7) = 0x9f81a6) ∧
      (f.Address.Addr.Is6 = true →
        (if f.Address.Addr.Is4 then 0x9f81a6 else 0x9f81a7) = 0x9f81a7) ∧
      parsed.SequenceNumber = f.SequenceNumber ∧ parsed.Address = f.Address := by
  obtain ⟨d, enc, hd, -, -, happ, hparse⟩ :=
    wire.roundtrip_spec f ((quicvarint.le_max_iff _).1 hs) []
  refine ⟨_, _, _, _, happ, ?_, hparse, ?_, ?_, rfl, ?_⟩
  · rw [wire.append_body, ← hd]
    exact sliceFrom_append_left _ _
  · intro h4
    rw [if_pos h4]
  · intro h6
    have h4 : ¬ f.Address.Addr.Is4 = true := by
      cases hip : f.Address.Addr <;> simp_all [Addr.Is4, Addr.Is6]
    rw [if_neg h4]
  · obtain ⟨seq, ip, port⟩ := f
    cases ip with
    | zero => simp [AddrPort.Addr, Addr.Is4, Addr.Is6] at ha
    | ip4 a => simp [AddrPort.Addr, Addr.Is4, AddrPortFrom, AddrPort.Port]
    | ip6 a z =>
      simp only [AddrPort.Addr, Addr.Is4, Addr.Is6, Addr.Zone, Bool.false_eq_true, false_or,
        true_and] at ha
      subst ha
      simp [AddrPort.Addr, Addr.Is4, AddrPortFrom, AddrPort.Port, AddrFrom16, Addr.As16]

theorem parse_Append_round_trip_witness :
    maxSeqFrame.SequenceNumber ≤ 2 ^ 62 - 1 ∧
    (maxSeqFrame.Address.Addr.Is4 = true ∨
      (maxSeqFrame.Address.Addr.Is6 = true ∧ maxSeqFrame.Address.Addr.Zone = "")) ∧
    ∃ data body n parsed,
      maxSeqFrame.Append [] = some (data, none) ∧ sliceFrom data 4 = some body ∧
      parseObservedAddressFrame body
          (if maxSeqFrame.Address.Addr.Is4 then 0x9f81a6 else 0x9f81a7) =
        some ⟨some parsed, n, none⟩ ∧
      (maxSeqFrame.Address.Addr.Is4 = true →
        (if maxSeqFrame.Address.Addr.Is4 then 0x9f81a6 else 0x9f81a7) = 0x9f81a6) ∧
      (maxSeqFrame.Address.Addr.Is6 = true →
        (if maxSeqFrame.Address.Addr.Is4 then 0x9f81a6 else 0x9f81a7) = 0x9f81a7) ∧
      parsed.SequenceNumber = maxSeqFrame.SequenceNumber ∧
      parsed.Address = maxSeqFrame.Address :=
  ⟨by decide, Or.inr ⟨rfl, rfl⟩,
    parse_Append_round_trip maxSeqFrame (by decide) (Or.inr ⟨rfl, rfl⟩)⟩

/-- Claim C1 as stated fails on the frame [fe80::1%eth0]:80 with sequence
number 1: its address is a 16-byte (`Is6`) address, `Append(nil, f)` writes
the 16 address bytes without the zone, and parsing the bytes after the frame
type with `0x9f81a7` returns no error and the address [fe80::1]:80, which is
not the address of `f`. -/
theorem zoned_address_round_trip_differs :
    zonedFrame.SequenceNumber ≤ 2 ^ 62 - 1 ∧ zonedFrame.Address.Addr.Is6 = true ∧
    zonedFrame.Append [] =
      some ([0x80, 0x9f, 0x81, 0xa7, 0x01, 0xfe, 0x80, 0, 0, 0, 0, 0, 0, 0, 0, 0, 0, 0, 0,
        0, 1, 0, 80], none) ∧
    sliceFrom [0x80, 0x9f, 0x81, 0xa7, 0x01, 0xfe, 0x80, 0, 0, 0, 0, 0, 0, 0, 0, 0, 0, 0, 0,
        0, 1, 0, 80] 4 =
      some [0x01, 0xfe, 0x80, 0, 0, 0, 0, 0, 0, 0, 0, 0, 0, 0, 0, 0, 1, 0, 80] ∧
    parseObservedAddressFrame
        [0x01, 0xfe, 0x80, 0, 0, 0, 0, 0, 0, 0, 0, 0, 0, 0, 0, 0, 1, 0, 80] 0x9f81a7 =
      some ⟨some ⟨1, ⟨Addr.ip6 ⟨[0xfe, 0x80, 0, 0, 0, 0, 0, 0, 0, 0, 0, 0, 0, 0, 0, 1], rfl⟩ "",
        80⟩⟩, 19, none⟩ ∧
    (⟨Addr.ip6 ⟨[0xfe, 0x80, 0, 0, 0, 0, 0, 0, 0, 0, 0, 0, 0, 0, 0, 1], rfl⟩ "", 80⟩ :
      AddrPort) ≠ zonedFrame.Address := by
  refine ⟨by decide, by decide, by decide, by decide, by decide, ?_⟩
  intro h
  have hz := congrArg (fun a => a.Addr.Zone) h
  simp [zonedFrame, AddrPort.Addr, Addr.Zone] at hz

theorem wire.Length_spec (f : ObservedAddressFrame) (enc : List Byte)
    (h : quicvarint.Len f.SequenceNumber = some enc.length) :
    f.Length = some (4 + enc.length + (rawAddr f.Address.Addr).length + 2) := by
  have h4 : quicvarint.Len 0x9f81a6 = some 4 := by decide
  unfold ObservedAddressFrame.Length
  rw [h4, h, wire.rawAddr_length]
  by_cases hip : f.Address.Addr.Is4 = true <;> simp [hip]

/-- Claim C2 (length exactness): for every frame with SequenceNumber at most
`2^62 - 1` (any address, any port), `Length(f)` is the number of bytes of
`Append(nil, f)`, and for every buffer `b` the result of `Append(b, f)` has
`len(b) + Length(f)` bytes. -/
theorem Length_eq_len_Append (f : ObservedAddressFrame)
    (hs : f.SequenceNumber ≤ 2 ^ 62 - 1) (b : List Byte) :
    ∃ data out n,
      f.Append [] = some (data, none) ∧ f.Append b = some (out, none) ∧
      f.Length = some n ∧ n = data.length ∧ out.length = b.length + n := by
  obtain ⟨d, enc, -, hd, -, hlen, -, happ⟩ :=
    wire.Append_spec f ((quicvarint.le_max_iff _).1 hs)
  have hl : (binary.BigEndianPutUint16 f.Address.Port).length = 2 := rfl
  refine ⟨_, _, _, happ [], happ b, wire.Length_spec f enc hlen, ?_, ?_⟩
  · simp only [List.length_append, List.length_nil, hd, hl]
  · simp only [List.length_append, hd, hl]
    omega

theorem Length_eq_len_Append_witness :
    testFrameIPv6.SequenceNumber ≤ 2 ^ 62 - 1 ∧
    ∃ data out n,
      testFrameIPv6.Append [] = some (data, none) ∧
      testFrameIPv6.Append [0x01, 0x02, 0x03] = some (out, none) ∧
      testFrameIPv6.Length = some n ∧ n = data.length ∧
      out.length = [(0x01 : Byte), 0x02, 0x03].length + n :=
  ⟨by decide, Length_eq_len_Append testFrameIPv6 (by decide) [0x01, 0x02, 0x03]⟩

/-- Claim C3 (consumed count in a round trip): for every frame with
SequenceNumber at most `2^62 - 1`, parsing the bytes of `Append(nil, f)` after
the four frame-type bytes, with the matching discriminant, returns no error
and a consumed count equal to `Length(f)` minus the varint length of the
discriminant, which is `len(Append(nil, f)) - 4`. -/
theorem consumed_eq_Length_sub_discriminant (f : ObservedAddressFrame)
    (hs : f.SequenceNumber ≤ 2 ^ 62 - 1) :
    ∃ data body n dl r,
      f.Append [] = some (data, none) ∧ sliceFrom data 4 = some body ∧
      f.Length = some n ∧
      quicvarint.Len (if f.Address.Addr.Is4 then 0x9f81a6 else 0x9f81a7) = some dl ∧
      parseObservedAddressFrame body (if f.Address.Addr.Is4 then 0x9f81a6 else 0x9f81a7) =
        some r ∧
      r.err = none ∧ r.consumed = (n : Int) - (dl : Int) ∧
      r.consumed = (data.length : Int) - 4 := by
  obtain ⟨d, enc, hd, hlen, -, happ, hparse⟩ :=
    wire.roundtrip_spec f ((quicvarint.le_max_iff _).1 hs) []
  have hdl : quicvarint.Len (if f.Address.Addr.Is4 then 0x9f81a6 else 0x9f81a7) = some 4 := by
    by_cases hip : f.Address.Addr.Is4 = true <;> simp [hip] <;> decide
  have hl : (binary.BigEndianPutUint16 f.Address.Port).length = 2 := rfl
  refine ⟨_, _, _, 4, _, happ, ?_, wire.Length_spec f enc hlen, hdl, hparse, rfl, ?_, ?_⟩
  · rw [wire.append_body, ← hd]
    exact sliceFrom_append_left _ _
  · show ((enc.length + (rawAddr f.Address.Addr).length + 2 : Nat) : Int) = _
    push_cast; omega
  · show ((enc.length + (rawAddr f.Address.Addr).length + 2 : Nat) : Int) = _
    simp only [List.length_append, hd, hl]
    push_cast; omega

theorem consumed_eq_Length_sub_discriminant_witness :
    testFrameIPv6.SequenceNumber ≤ 2 ^ 62 - 1 ∧
    ∃ data body n dl r,
      testFrameIPv6.Append [] = some (data, none) ∧ sliceFrom data 4 = some body ∧
      testFrameIPv6.Length = some n ∧
      quicvarint.Len (if testFrameIPv6.Address.Addr.Is4 then 0x9f81a6 else 0x9f81a7) =
        some dl ∧
      parseObservedAddressFrame body
          (if testFrameIPv6.Address.Addr.Is4 then 0x9f81a6 else 0x9f81a7) = some r ∧
      r.err = none ∧ r.consumed = (n : Int) - (dl : Int) ∧
      r.consumed = (data.length : Int) - 4 :=
  ⟨by decide, consumed_eq_Length_sub_discriminant testFrameIPv6 (by decide)⟩

/-- Claim C4 (the IPv4 test's assertion on the consumed count), evaluated on
the test's own frame 192.168.1.1:8080 with sequence number 42: `Append(nil, f)`
has 11 bytes, and `parseObservedAddressFrame(data[4:], 0x9f81a6)` returns the
frame with no error and the count 7, the bytes read after the frame type, not
`len(data) = 11`. -/
theorem test_IPv4_consumed_is_seven :
    testFrameIPv4.Append [] =
      some ([0x80, 0x9f, 0x81, 0xa6, 42, 192, 168, 1, 1, 0x1f, 0x90], none) ∧
    sliceFrom [0x80, 0x9f, 0x81, 0xa6, 42, 192, 168, 1, 1, 0x1f, 0x90] 4 =
      some [42, 192, 168, 1, 1, 0x1f, 0x90] ∧
    parseObservedAddressFrame [42, 192, 168, 1, 1, 0x1f, 0x90] 0x9f81a6 =
      some ⟨some testFrameIPv4, 7, none⟩ ∧
    ((7 : Int) ≠
      (([0x80, 0x9f, 0x81, 0xa6, 42, 192, 168, 1, 1, 0x1f, 0x90] : List Byte).length : Int)) := by
  refine ⟨by decide, by decide, by decide, by decide⟩

theorem quicvarint.enc_cons (enc : List Byte) (i : Nat)
    (h : ∀ rest, quicvarint.Parse (enc ++ rest) = (i, enc.length, none)) :
    ∃ first t, enc = first :: t ∧ quicvarint.width first = enc.length := by
  cases enc with
  | nil =>
    have := h []
    simp [quicvarint.Parse] at this
  | cons first t =>
    refine ⟨first, t, rfl, ?_⟩
    have := h []
    rw [List.append_nil] at this
    exact quicvarint.width_of_Parse first t _ _ this

/-- Claim C5 (truncation): for every frame with SequenceNumber at most
`2^62 - 1`, with `body` the bytes of `Append(nil, f)` after the four frame-type
bytes, parsing any strict prefix of `body` (every length `k < len(body)`, the
empty input included) with the matching discriminant does not panic and
returns a nil frame, the count 0 and an incomplete-frame error: `io.EOF` on
the empty prefix, `io.ErrUnexpectedEOF` inside the sequence number, `io.EOF`
inside the address or the port. -/
theorem parse_truncated_incomplete (f : ObservedAddressFrame)
    (hs : f.SequenceNumber ≤ 2 ^ 62 - 1) :
    ∃ data body w,
      f.Append [] = some (data, none) ∧ sliceFrom data 4 = some body ∧
      quicvarint.Len f.SequenceNumber = some w ∧
      ∀ k, k < body.length →
        ∃ e, parseObservedAddressFrame (body.take k)
              (if f.Address.Addr.Is4 then 0x9f81a6 else 0x9f81a7) =
            some ⟨none, 0, some e⟩ ∧
          e.kind = ErrorKind.incompleteFrame ∧
          e = (if k = 0 then IoError.EOF
               else if k < w then IoError.ErrUnexpectedEOF else IoError.EOF) := by
  obtain ⟨d, enc, hd, hlen, hP, happ, -⟩ :=
    wire.roundtrip_spec f ((quicvarint.le_max_iff _).1 hs) []
  obtain ⟨first, t, henc, hw⟩ := quicvarint.enc_cons enc _ hP
  have hl : (binary.BigEndianPutUint16 f.Address.Port).length = 2 := rfl
  have ha := wire.addrLen_matching f
  unfold matchingDiscriminant at ha
  refine ⟨_, enc ++ rawAddr f.Address.Addr ++ binary.BigEndianPutUint16 f.Address.Port,
    enc.length, happ, ?_, hlen, ?_⟩
  · have := sliceFrom_append_left d
      (enc ++ rawAddr f.Address.Addr ++ binary.BigEndianPutUint16 f.Address.Port)
    rw [hd] at this
    simpa [List.append_assoc] using this
  · intro k hk
    simp only [List.length_append, hl] at hk
    cases k with
    | zero =>
      exact ⟨IoError.EOF, by rw [List.take_zero]; exact wire.parse_nil _, rfl, by simp⟩
    | succ k =>
      subst henc
      simp only [List.cons_append, List.take_succ_cons]
      rw [wire.parse_cons, hw, ha]
      have hlen' : (first :: List.take k (t ++ rawAddr f.Address.Addr ++
          binary.BigEndianPutUint16 f.Address.Port)).length = k + 1 := by
        simp only [List.length_cons, List.length_take, List.length_append, hl] at hk ⊢
        omega
      rw [hlen']
      by_cases h1 : k + 1 < (first :: t).length
      · exact ⟨IoError.ErrUnexpectedEOF, by rw [if_pos h1], rfl,
          by rw [if_neg (Nat.succ_ne_zero k), if_pos h1]⟩
      · have h2 : k + 1 < (first :: t).length + (rawAddr f.Address.Addr).length + 2 := hk
        exact ⟨IoError.EOF, by rw [if_neg h1, if_pos h2], rfl,
          by rw [if_neg (Nat.succ_ne_zero k), if_neg h1]⟩

theorem parse_truncated_incomplete_witness :
    testFrameIPv4.SequenceNumber ≤ 2 ^ 62 - 1 ∧
    ∃ data body w,
      testFrameIPv4.Append [] = some (data, none) ∧ sliceFrom data 4 = some body ∧
      quicvarint.Len testFrameIPv4.SequenceNumber = some w ∧
      ∀ k, k < body.length →
        ∃ e, parseObservedAddressFrame (body.take k)
              (if testFrameIPv4.Address.Addr.Is4 then 0x9f81a6 else 0x9f81a7) =
            some ⟨none, 0, some e⟩ ∧
          e.kind = ErrorKind.incompleteFrame ∧
          e = (if k = 0 then IoError.EOF
               else if k < w then IoError.ErrUnexpectedEOF else IoError.EOF) :=
  ⟨by decide, parse_truncated_incomplete testFrameIPv4 (by decide)⟩

theorem quicvarint.Parse_all_ff (m : Nat) :
    (quicvarint.Parse (List.replicate (m + 8) (0xff : Byte))).1 = 2 ^ 62 - 1 := by
  have h : List.replicate (m + 8) (0xff : Byte) =
      0xff :: 0xff :: 0xff :: 0xff :: 0xff :: 0xff :: 0xff :: 0xff :: List.replicate m 0xff := by
    simp [List.replicate_succ]
  rw [h, quicvarint.Parse_w8 _ _ _ _ _ _ _ _ _ (by decide)]
  decide

theorem wire.portOf_all_ff (m : Nat) :
    portOf (List.replicate (m + 2) (0xff : Byte)) = 65535 := by
  simp only [List.replicate_succ, portOf, quicvarint.byteAt, List.getD_cons_succ,
    List.getD_cons_zero]
  decide

theorem wire.addrOf_all_ff (typ m : Nat) (h : 16 ≤ m ∨ (typ = 0x9f81a6 ∧ 4 ≤ m)) :
    addrOf typ (List.replicate m (0xff : Byte)) =
      if typ = 0x9f81a6 then Addr.ip4 ⟨List.replicate 4 0xff, rfl⟩
      else Addr.ip6 ⟨List.replicate 16 0xff, rfl⟩ "" := by
  unfold addrOf
  by_cases ht : typ = 0x9f81a6
  · have h4 : min 4 m = 4 := by omega
    rw [if_pos ht, if_pos ht, List.take_replicate, h4]
    rfl
  · have h16 : min 16 m = 16 := by omega
    rw [if_neg ht, if_neg ht, List.take_replicate, h16]
    rfl

theorem wire.parse_replicate_ff (n typ : Nat) :
    parseObservedAddressFrame (List.replicate n (0xff : Byte)) typ =
      if n = 0 then some ⟨none, 0, some IoError.EOF⟩
      else if n < 8 then some ⟨none, 0, some IoError.ErrUnexpectedEOF⟩
      else if n < 8 + (if typ = 0x9f81a6 then 4 else 16) + 2 then
        some ⟨none, 0, some IoError.EOF⟩
      else
        some ⟨some ⟨2 ^ 62 - 1, AddrPortFrom
            (if typ = 0x9f81a6 then Addr.ip4 ⟨List.replicate 4 0xff, rfl⟩
             else Addr.ip6 ⟨List.replicate 16 0xff, rfl⟩ "") 65535⟩,
          ((8 + (if typ = 0x9f81a6 then 4 else 16) + 2 : Nat) : Int), none⟩ := by
  cases n with
  | zero => exact wire.parse_nil typ
  | succ k =>
    have hw : quicvarint.width (0xff : Byte) = 8 := by decide
    have hlen : ((0xff : Byte) :: List.replicate k 0xff).length = k + 1 := by simp
    rw [if_neg (Nat.succ_ne_zero k), List.replicate_succ, wire.parse_cons, hw, hlen,
      ← List.replicate_succ]
    have ha : addrLen typ = if typ = 0x9f81a6 then 4 else 16 := rfl
    rw [← ha]
    by_cases h1 : k + 1 < 8
    · rw [if_pos h1, if_pos h1]
    · rw [if_neg h1, if_neg h1]
      by_cases h2 : k + 1 < 8 + addrLen typ + 2
      · rw [if_pos h2, if_pos h2]
      · rw [if_neg h2, if_neg h2]
        obtain ⟨m, hm⟩ : ∃ m, k + 1 = m + 8 := ⟨k + 1 - 8, by omega⟩
        obtain ⟨m2, hm2⟩ : ∃ m2, k + 1 - (8 + addrLen typ) = m2 + 2 :=
          ⟨k + 1 - (8 + addrLen typ) - 2, by omega⟩
        have hat : 16 ≤ k + 1 - 8 ∨ (typ = 0x9f81a6 ∧ 4 ≤ k + 1 - 8) := by
          rcases wire.addrLen_cases typ with ⟨ht, h4⟩ | ⟨-, h16⟩
          · right; omega
          · left; omega
        rw [List.drop_replicate, List.drop_replicate, hm2, wire.portOf_all_ff,
          wire.addrOf_all_ff typ _ hat]
        rw [hm, quicvarint.Parse_all_ff]

theorem wire.parse_ff_field (rest : List Byte) (typ : Nat) :
    ∃ r, parseObservedAddressFrame (List.replicate 8 (0xff : Byte) ++ rest) typ = some r ∧
      if rest.length < (if typ = 0x9f81a6 then 4 else 16) + 2 then
        r = ⟨none, 0, some IoError.EOF⟩
      else
        ∃ f, r = ⟨some f, ((8 + (if typ = 0x9f81a6 then 4 else 16) + 2 : Nat) : Int), none⟩ ∧
          f.SequenceNumber = 2 ^ 62 - 1 := by
  have hw : quicvarint.width (0xff : Byte) = 8 := by decide
  have hl : ((0xff : Byte) :: (List.replicate 7 (0xff : Byte) ++ rest)).length =
      8 + rest.length := by simp; omega
  have ha : addrLen typ = if typ = 0x9f81a6 then 4 else 16 := rfl
  have hrep : List.replicate 8 (0xff : Byte) ++ rest =
      0xff :: (List.replicate 7 (0xff : Byte) ++ rest) := rfl
  rw [hrep, wire.parse_cons, hw, hl, ← ha]
  have h1 : ¬ 8 + rest.length < 8 := by omega
  rw [if_neg h1]
  by_cases h2 : rest.length < addrLen typ + 2
  · have h3 : 8 + rest.length < 8 + addrLen typ + 2 := by omega
    rw [if_pos h3]
    refine ⟨_, rfl, ?_⟩
    rw [if_pos h2]
  · have h3 : ¬ 8 + rest.length < 8 + addrLen typ + 2 := by omega
    rw [if_neg h3]
    refine ⟨_, rfl, ?_⟩
    rw [if_neg h2]
    refine ⟨_, rfl, ?_⟩
    show (quicvarint.Parse (0xff :: 0xff :: 0xff :: 0xff :: 0xff :: 0xff :: 0xff :: 0xff ::
      rest)).1 = 2 ^ 62 - 1
    rw [quicvarint.Parse_w8 _ _ _ _ _ _ _ _ _ (by decide)]
    decide

/-- Claim C6, as amended: when the sequence-number field of the input is made
only of `0xff` bytes, the first byte announces an 8-byte sequence number and
no malformed-varint error exists. An input of `n` bytes `0xff` gives a nil
frame, count 0 and an incomplete-frame error when `n < 8 + (4 or 16) + 2`
(`io.EOF` on the empty input, `io.ErrUnexpectedEOF` below 8 bytes, `io.EOF`
otherwise) and otherwise parses into the sequence number `2^62 - 1`, an
all-`0xff` address and port 65535; and eight `0xff` bytes followed by any
bytes `rest` give `io.EOF` when `rest` is shorter than the address and port,
and otherwise a frame whose sequence number is `2^62 - 1`, the 62 value bits. -/
theorem parse_ff_sequence_number (typ : Nat) :
    (∀ n, parseObservedAddressFrame (List.replicate n (0xff : Byte)) typ =
      if n = 0 then some ⟨none, 0, some IoError.EOF⟩
      else if n < 8 then some ⟨none, 0, some IoError.ErrUnexpectedEOF⟩
      else if n < 8 + (if typ = 0x9f81a6 then 4 else 16) + 2 then
        some ⟨none, 0, some IoError.EOF⟩
      else
        some ⟨some ⟨2 ^ 62 - 1, AddrPortFrom
            (if typ = 0x9f81a6 then Addr.ip4 ⟨List.replicate 4 0xff, rfl⟩
             else Addr.ip6 ⟨List.replicate 16 0xff, rfl⟩ "") 65535⟩,
          ((8 + (if typ = 0x9f81a6 then 4 else 16) + 2 : Nat) : Int), none⟩) ∧
    (∀ rest, ∃ r,
      parseObservedAddressFrame (List.replicate 8 (0xff : Byte) ++ rest) typ = some r ∧
      if rest.length < (if typ = 0x9f81a6 then 4 else 16) + 2 then
        r = ⟨none, 0, some IoError.EOF⟩
      else
        ∃ f, r = ⟨some f, ((8 + (if typ = 0x9f81a6 then 4 else 16) + 2 : Nat) : Int), none⟩ ∧
          f.SequenceNumber = 2 ^ 62 - 1) :=
  ⟨fun n => wire.parse_replicate_ff n typ, fun rest => wire.parse_ff_field rest typ⟩

/-- Claim C6 as stated fails: fourteen `0xff` bytes parse, with the 4-byte
discriminant, into a frame with sequence number `2^62 - 1`, and the five
`0xff` bytes of the test give `io.ErrUnexpectedEOF`, an incomplete-frame
error and not a malformed-varint error. -/
theorem all_ff_is_not_malformed :
    parseObservedAddressFrame (List.replicate 14 (0xff : Byte)) 0x9f81a6 =
      some ⟨some ⟨2 ^ 62 - 1, AddrPortFrom (Addr.ip4 ⟨[255, 255, 255, 255], rfl⟩) 65535⟩,
        14, none⟩ ∧
    parseObservedAddressFrame (List.replicate 5 (0xff : Byte)) 0x9f81a6 =
      some ⟨none, 0, some IoError.ErrUnexpectedEOF⟩ ∧
    IoError.ErrUnexpectedEOF.kind ≠ ErrorKind.malformedVarint := by
  refine ⟨by decide, by decide, by decide⟩

/-- Claim C7, as amended (family fidelity on serialise): for every frame with
SequenceNumber at most `2^62 - 1`, `Append(nil, f)` succeeds; with a 4-byte
address its result begins with `0x80 0x9f 0x81 0xa6`, the varint encoding of
`0x9f81a6`, with a 16-byte address it begins with `0x80 0x9f 0x81 0xa7`, the
varint encoding of `0x9f81a7`; decoding the result as a varint gives back that
discriminant and reads 4 bytes. -/
theorem Append_begins_with_discriminant (f : ObservedAddressFrame)
    (hs : f.SequenceNumber ≤ 2 ^ 62 - 1) :
    ∃ data, f.Append [] = some (data, none) ∧
      (f.Address.Addr.Is4 = true →
        quicvarint.Append [] 0x9f81a6 = some [0x80, 0x9f, 0x81, 0xa6] ∧
        [0x80, 0x9f, 0x81, 0xa6] <+: data ∧
        quicvarint.Parse data = (0x9f81a6, 4, none)) ∧
      (f.Address.Addr.Is6 = true →
        quicvarint.Append [] 0x9f81a7 = some [0x80, 0x9f, 0x81, 0xa7] ∧
        [0x80, 0x9f, 0x81, 0xa7] <+: data ∧
        quicvarint.Parse data = (0x9f81a7, 4, none)) := by
  obtain ⟨d, enc, hd, -, -, -, -, happ⟩ := wire.Append_spec f ((quicvarint.le_max_iff _).1 hs)
  refine ⟨_, happ [], ?_, ?_⟩
  · intro h4
    unfold matchingDiscriminant at hd
    rw [if_pos h4, quicvarint.Append_disc4] at hd
    cases hd
    refine ⟨quicvarint.Append_disc4 [],
      ⟨enc ++ (rawAddr f.Address.Addr ++ binary.BigEndianPutUint16 f.Address.Port),
        by simp⟩, ?_⟩
    simp only [List.nil_append, List.cons_append]
    rw [quicvarint.Parse_w4 _ _ _ _ _ (by decide)]
    decide
  · intro h6
    have h4 : ¬ f.Address.Addr.Is4 = true := by
      cases hip : f.Address.Addr <;> simp_all [Addr.Is4, Addr.Is6]
    unfold matchingDiscriminant at hd
    rw [if_neg h4, quicvarint.Append_disc6] at hd
    cases hd
    refine ⟨quicvarint.Append_disc6 [],
      ⟨enc ++ (rawAddr f.Address.Addr ++ binary.BigEndianPutUint16 f.Address.Port),
        by simp⟩, ?_⟩
    simp only [List.nil_append, List.cons_append]
    rw [quicvarint.Parse_w4 _ _ _ _ _ (by decide)]
    decide

theorem Append_begins_with_discriminant_witness :
    testFrameIPv6.SequenceNumber ≤ 2 ^ 62 - 1 ∧
    ∃ data, testFrameIPv6.Append [] = some (data, none) ∧
      (testFrameIPv6.Address.Addr.Is4 = true →
        quicvarint.Append [] 0x9f81a6 = some [0x80, 0x9f, 0x81, 0xa6] ∧
        [0x80, 0x9f, 0x81, 0xa6] <+: data ∧
        quicvarint.Parse data = (0x9f81a6, 4, none)) ∧
      (testFrameIPv6.Address.Addr.Is6 = true →
        quicvarint.Append [] 0x9f81a7 = some [0x80, 0x9f, 0x81, 0xa7] ∧
        [0x80, 0x9f, 0x81, 0xa7] <+: data ∧
        quicvarint.Parse data = (0x9f81a7, 4, none)) :=
  ⟨by decide, Append_begins_with_discriminant testFrameIPv6 (by decide)⟩

/-- Claim C7 as stated fails: the frame 192.168.1.1:8080 with sequence number
`2^62` has a 4-byte address, and `Append(nil, f)` returns no bytes at all: the
varint primitive panics on the sequence number. -/
theorem Append_oversized_panics :
    oversizedFrame.Address.Addr.Is4 = true ∧ oversizedFrame.Append [] = none := by
  refine ⟨by decide, by decide⟩

theorem wire.addrOf_family (typ : Nat) (l : List Byte) :
    (typ = 0x9f81a6 → (addrOf typ l).Is4 = true) ∧
    (typ = 0x9f81a7 → (addrOf typ l).Is6 = true) := by
  constructor <;> intro h <;> subst h <;> simp [addrOf, AddrFrom4, AddrFrom16, Addr.Is4, Addr.Is6]

/-- Claim C8 (family fidelity on parse): whatever the input bytes, when
`parseObservedAddressFrame` returns without error the frame it returns has an
`Is4` address if the discriminant is `0x9f81a6` and an `Is6` address if the
discriminant is `0x9f81a7`. -/
theorem parse_address_family (b : List Byte) (typ : Nat) (r : ParseResult)
    (h : parseObservedAddressFrame b typ = some r) (he : r.err = none) :
    ∃ f, r.frame = some f ∧
      (typ = 0x9f81a6 → f.Address.Addr.Is4 = true) ∧
      (typ = 0x9f81a7 → f.Address.Addr.Is6 = true) := by
  cases b with
  | nil =>
    rw [wire.parse_nil] at h
    cases h
    simp at he
  | cons first t =>
    rw [wire.parse_cons] at h
    split_ifs at h
    · cases h
      simp at he
    · cases h
      simp at he
    · cases h
      exact ⟨_, rfl, wire.addrOf_family typ _⟩

theorem parse_address_family_witness :
    parseObservedAddressFrame [42, 192, 168, 1, 1, 0x1f, 0x90] 0x9f81a6 =
      some ⟨some testFrameIPv4, 7, none⟩ ∧
    (⟨some testFrameIPv4, 7, none⟩ : ParseResult).err = none ∧
    ∃ f, (⟨some testFrameIPv4, 7, none⟩ : ParseResult).frame = some f ∧
      (0x9f81a6 = 0x9f81a6 → f.Address.Addr.Is4 = true) ∧
      (0x9f81a6 = 0x9f81a7 → f.Address.Addr.Is6 = true) :=
  ⟨by decide, rfl,
    parse_address_family [42, 192, 168, 1, 1, 0x1f, 0x90] 0x9f81a6
      ⟨some testFrameIPv4, 7, none⟩ (by decide) rfl⟩

/-- Claim C9 (error atomicity of parse): for every input and every
discriminant `parseObservedAddressFrame` returns (it does not panic), and the
result is either a non-nil frame with a positive consumed count and a nil
error, or a nil frame with the count 0 and a non-nil error. -/
theorem parse_frame_xor_error (b : List Byte) (typ : Nat) :
    ∃ r, parseObservedAddressFrame b typ = some r ∧
      ((∃ f, r.frame = some f ∧ 0 < r.consumed ∧ r.err = none) ∨
       (r.frame = none ∧ r.consumed = 0 ∧ ∃ e, r.err = some e)) := by
  obtain ⟨r, hr, h⟩ := wire.parse_total b typ
  refine ⟨r, hr, ?_⟩
  rcases h with ⟨f, hf, hc, he, -⟩ | h
  · exact Or.inl ⟨f, hf, hc, he⟩
  · exact Or.inr h

/-- Claim C10 (wire layout of Append): for every buffer `b` and frame `f` with
SequenceNumber at most `2^62 - 1`, `Append(b, f)` returns a nil error and the
bytes `b`, then the varint encoding of the discriminant, then the varint
encoding of SequenceNumber, then the raw address bytes (the 4 bytes of `As4`
for an `Is4` address, the 16 bytes of `As16` otherwise), then the port as two
bytes, `port / 256` and `port % 256`; `b` is a prefix of the result. -/
theorem Append_wire_layout (b : List Byte) (f : ObservedAddressFrame)
    (hs : f.SequenceNumber ≤ 2 ^ 62 - 1) :
    ∃ disc seq addr hi lo out,
      quicvarint.Append [] (if f.Address.Addr.Is4 then 0x9f81a6 else 0x9f81a7) = some disc ∧
      quicvarint.Append [] f.SequenceNumber = some seq ∧
      (f.Address.Addr.Is4 = true → ∃ a4, f.Address.Addr.As4 = some a4 ∧ addr = a4.val) ∧
      (f.Address.Addr.Is4 = false → addr = f.Address.Addr.As16.val) ∧
      addr.length = (if f.Address.Addr.Is4 then 4 else 16) ∧
      hi.val = f.Address.Port.val / 256 ∧ lo.val = f.Address.Port.val % 256 ∧
      f.Append b = some (out, none) ∧
      out = b ++ disc ++ seq ++ addr ++ [hi, lo] ∧ b <+: out := by
  obtain ⟨d, enc, hd, -, he, -, -, happ⟩ := wire.Append_spec f ((quicvarint.le_max_iff _).1 hs)
  have hp := f.Address.Port.isLt
  refine ⟨d, enc, rawAddr f.Address.Addr, uint8 (f.Address.Port.val >>> 8),
    uint8 f.Address.Port.val, _, hd, he, ?_, ?_, wire.rawAddr_length _, ?_, ?_, happ b, rfl, ?_⟩
  · intro h4
    cases hip : f.Address.Addr with
    | zero => rw [hip] at h4; simp [Addr.Is4] at h4
    | ip4 a => exact ⟨a, rfl, rfl⟩
    | ip6 a z => rw [hip] at h4; simp [Addr.Is4] at h4
  · intro h4
    exact wire.rawAddr_eq_As16 _ h4
  · rw [uint8_val, Nat.shiftRight_eq_div_pow]; omega
  · rw [uint8_val]
  · exact ⟨d ++ enc ++ rawAddr f.Address.Addr ++ binary.BigEndianPutUint16 f.Address.Port,
      by simp [List.append_assoc]⟩

theorem Append_wire_layout_witness :
    testFrameIPv4.SequenceNumber ≤ 2 ^ 62 - 1 ∧
    ∃ disc seq addr hi lo out,
      quicvarint.Append [] (if testFrameIPv4.Address.Addr.Is4 then 0x9f81a6 else 0x9f81a7) =
        some disc ∧
      quicvarint.Append [] testFrameIPv4.SequenceNumber = some seq ∧
      (testFrameIPv4.Address.Addr.Is4 = true →
        ∃ a4, testFrameIPv4.Address.Addr.As4 = some a4 ∧ addr = a4.val) ∧
      (testFrameIPv4.Address.Addr.Is4 = false → addr = testFrameIPv4.Address.Addr.As16.val) ∧
      addr.length = (if testFrameIPv4.Address.Addr.Is4 then 4 else 16) ∧
      hi.val = testFrameIPv4.Address.Port.val / 256 ∧
      lo.val = testFrameIPv4.Address.Port.val % 256 ∧
      testFrameIPv4.Append [0x01, 0x02] = some (out, none) ∧
      out = [0x01, 0x02] ++ disc ++ seq ++ addr ++ [hi, lo] ∧ [0x01, 0x02] <+: out :=
  ⟨by decide, Append_wire_layout [0x01, 0x02] testFrameIPv4 (by decide)⟩

theorem quicvarint.width_values (first : Byte) :
    quicvarint.width first = 1 ∨ quicvarint.width first = 2 ∨
    quicvarint.width first = 4 ∨ quicvarint.width first = 8 := by
  rcases quicvarint.width_cases first with ⟨-, h⟩ | ⟨-, h⟩ | ⟨-, h⟩ | ⟨-, h⟩ <;> simp [h]

/-- Claim C11 (consumed count of parse in general): whenever
`parseObservedAddressFrame` returns without error, on any input (trailing
bytes and a non-minimal sequence number included), the count it returns is the
number `w` of bytes the varint primitive read, which is `2^(b[0] >> 6)`, one
of 1, 2, 4 and 8, plus 4 for the discriminant `0x9f81a6` or 16 for
`0x9f81a7`, plus 2; and the count is at most `len(b)`. -/
theorem consumed_count_formula (b : List Byte) (typ : Nat) (r : ParseResult)
    (h : parseObservedAddressFrame b typ = some r) (he : r.err = none) :
    ∃ first t v w,
      b = first :: t ∧ quicvarint.Parse b = (v, w, none) ∧
      w = 2 ^ (first.val >>> 6) ∧ (w = 1 ∨ w = 2 ∨ w = 4 ∨ w = 8) ∧
      r.consumed = ((w + (if typ = 0x9f81a6 then 4 else 16) + 2 : Nat) : Int) ∧
      (typ = 0x9f81a6 → r.consumed = (w : Int) + 4 + 2) ∧
      (typ = 0x9f81a7 → r.consumed = (w : Int) + 16 + 2) ∧
      r.consumed ≤ (b.length : Int) := by
  cases b with
  | nil =>
    rw [wire.parse_nil] at h
    cases h
    simp at he
  | cons first t =>
    rw [wire.parse_cons] at h
    split_ifs at h with h1 h2
    · cases h
      simp at he
    · cases h
      simp at he
    · cases h
      obtain ⟨v, hv, -⟩ := quicvarint.Parse_ok first t (by omega)
      have ha : addrLen typ = if typ = 0x9f81a6 then 4 else 16 := rfl
      refine ⟨first, t, v, quicvarint.width first, rfl, hv, rfl,
        quicvarint.width_values first, ?_, ?_, ?_, ?_⟩
      · rw [← ha]
      · intro ht
        show ((quicvarint.width first + addrLen typ + 2 : Nat) : Int) = _
        rw [ha, if_pos ht]
        push_cast
        rfl
      · intro ht
        show ((quicvarint.width first + addrLen typ + 2 : Nat) : Int) = _
        rw [ha, if_neg (by rw [ht]; decide)]
        push_cast
        rfl
      · show ((quicvarint.width first + addrLen typ + 2 : Nat) : Int) ≤ _
        omega

theorem consumed_count_formula_witness :
    parseObservedAddressFrame [0x40, 0x05, 10, 0, 0, 1, 0, 80, 0xaa, 0xbb] 0x9f81a6 =
      some ⟨some ⟨5, ⟨Addr.ip4 ⟨[10, 0, 0, 1], rfl⟩, 80⟩⟩, 8, none⟩ ∧
    (⟨some ⟨5, ⟨Addr.ip4 ⟨[10, 0, 0, 1], rfl⟩, 80⟩⟩, 8, none⟩ : ParseResult).err = none ∧
    ∃ first t v w,
      ([0x40, 0x05, 10, 0, 0, 1, 0, 80, 0xaa, 0xbb] : List Byte) = first :: t ∧
      quicvarint.Parse [0x40, 0x05, 10, 0, 0, 1, 0, 80, 0xaa, 0xbb] = (v, w, none) ∧
      w = 2 ^ (first.val >>> 6) ∧ (w = 1 ∨ w = 2 ∨ w = 4 ∨ w = 8) ∧
      (⟨some ⟨5, ⟨Addr.ip4 ⟨[10, 0, 0, 1], rfl⟩, 80⟩⟩, 8, none⟩ : ParseResult).consumed =
        ((w + (if 0x9f81a6 = 0x9f81a6 then 4 else 16) + 2 : Nat) : Int) ∧
      (0x9f81a6 = 0x9f81a6 →
        (⟨some ⟨5, ⟨Addr.ip4 ⟨[10, 0, 0, 1], rfl⟩, 80⟩⟩, 8, none⟩ : ParseResult).consumed =
          (w : Int) + 4 + 2) ∧
      (0x9f81a6 = 0x9f81a7 →
        (⟨some ⟨5, ⟨Addr.ip4 ⟨[10, 0, 0, 1], rfl⟩, 80⟩⟩, 8, none⟩ : ParseResult).consumed =
          (w : Int) + 16 + 2) ∧
      (⟨some ⟨5, ⟨Addr.ip4 ⟨[10, 0, 0, 1], rfl⟩, 80⟩⟩, 8, none⟩ : ParseResult).consumed ≤
        ((([0x40, 0x05, 10, 0, 0, 1, 0, 80, 0xaa, 0xbb] : List Byte).length : Nat) : Int) :=
  ⟨by decide, rfl,
    consumed_count_formula [0x40, 0x05, 10, 0, 0, 1, 0, 80, 0xaa, 0xbb] 0x9f81a6
      ⟨some ⟨5, ⟨Addr.ip4 ⟨[10, 0, 0, 1], rfl⟩, 80⟩⟩, 8, none⟩ (by decide) rfl⟩

theorem quicvarint.Len_eq (i : Nat) (h : i ≤ quicvarint.maxVarInt8) :
    quicvarint.Len i =
      some (if i ≤ 63 then 1 else if i ≤ 16383 then 2 else if i ≤ 2 ^ 30 - 1 then 4 else 8) := by
  have e30 : (2 : Nat) ^ 30 - 1 = 1073741823 := by norm_num
  unfold quicvarint.Len quicvarint.maxVarInt1 quicvarint.maxVarInt2 quicvarint.maxVarInt4
  rw [e30]
  split_ifs <;> rfl

/-- Claim C12 (length formula): for every frame with SequenceNumber at most
`2^62 - 1`, `Length(f)` is the varint length of the discriminant selected for
the family of `f`, plus the varint length of SequenceNumber, plus 4 for an
`Is4` address and 16 otherwise, plus 2. The code takes the varint length of
`0x9f81a6` for the first term, which is 4, as is that of `0x9f81a7`; the
varint length of SequenceNumber is 1 up to 63, 2 up to 16383, 4 up to
`2^30 - 1` and 8 up to `2^62 - 1`. -/
theorem Length_formula (f : ObservedAddressFrame) (hs : f.SequenceNumber ≤ 2 ^ 62 - 1) :
    ∃ dl sl,
      quicvarint.Len (if f.Address.Addr.Is4 then 0x9f81a6 else 0x9f81a7) = some dl ∧
      quicvarint.Len 0x9f81a6 = some dl ∧ dl = 4 ∧
      quicvarint.Len f.SequenceNumber = some sl ∧
      sl = (if f.SequenceNumber ≤ 63 then 1 else if f.SequenceNumber ≤ 16383 then 2
            else if f.SequenceNumber ≤ 2 ^ 30 - 1 then 4 else 8) ∧
      f.Length = some (dl + sl + (if f.Address.Addr.Is4 then 4 else 16) + 2) := by
  have hs' := (quicvarint.le_max_iff _).1 hs
  have h4 : quicvarint.Len 0x9f81a6 = some 4 := by decide
  have hd : quicvarint.Len (if f.Address.Addr.Is4 then 0x9f81a6 else 0x9f81a7) = some 4 := by
    by_cases hip : f.Address.Addr.Is4 = true <;> simp [hip] <;> decide
  refine ⟨4, _, hd, h4, rfl, quicvarint.Len_eq _ hs', rfl, ?_⟩
  unfold ObservedAddressFrame.Length
  rw [h4, quicvarint.Len_eq _ hs']
  by_cases hip : f.Address.Addr.Is4 = true <;> simp [hip]

theorem Length_formula_witness :
    maxSeqFrame.SequenceNumber ≤ 2 ^ 62 - 1 ∧
    ∃ dl sl,
      quicvarint.Len (if maxSeqFrame.Address.Addr.Is4 then 0x9f81a6 else 0x9f81a7) = some dl ∧
      quicvarint.Len 0x9f81a6 = some dl ∧ dl = 4 ∧
      quicvarint.Len maxSeqFrame.SequenceNumber = some sl ∧
      sl = (if maxSeqFrame.SequenceNumber ≤ 63 then 1
            else if maxSeqFrame.SequenceNumber ≤ 16383 then 2
            else if maxSeqFrame.SequenceNumber ≤ 2 ^ 30 - 1 then 4 else 8) ∧
      maxSeqFrame.Length =
        some (dl + sl + (if maxSeqFrame.Address.Addr.Is4 then 4 else 16) + 2) :=
  ⟨by decide, Length_formula maxSeqFrame (by decide)⟩

/-- Claim C13 (Append has no error path): for every frame with SequenceNumber
at most `2^62 - 1` (any address, any port) and every buffer `b`, `Append(b, f)`
returns with a nil error and `Length(f)` returns; the two values handed to the
varint primitive, the frame type and the SequenceNumber, are at most
`2^62 - 1`, so neither `quicvarint.Append` nor `quicvarint.Len` takes its
out-of-range branch, and `As4` is only called on an `Is4` address. -/
theorem Append_no_error_path (f : ObservedAddressFrame) (b : List Byte)
    (hs : f.SequenceNumber ≤ 2 ^ 62 - 1) :
    (∃ out, f.Append b = some (out, none)) ∧
    (∃ n, f.Length = some n) ∧
    (if f.Address.Addr.Is4 then 0x9f81a6 else 0x9f81a7) ≤ quicvarint.maxVarInt8 ∧
    0x9f81a6 ≤ quicvarint.maxVarInt8 ∧
    f.SequenceNumber ≤ quicvarint.maxVarInt8 ∧
    (∀ b1, quicvarint.Append b1 (if f.Address.Addr.Is4 then 0x9f81a6 else 0x9f81a7) ≠ none) ∧
    (∀ b2, quicvarint.Append b2 f.SequenceNumber ≠ none) ∧
    quicvarint.Len 0x9f81a6 ≠ none ∧ quicvarint.Len f.SequenceNumber ≠ none ∧
    (f.Address.Addr.Is4 = true → f.Address.Addr.As4 ≠ none) := by
  have hs' := (quicvarint.le_max_iff _).1 hs
  obtain ⟨d, enc, -, -, -, hlen, -, happ⟩ := wire.Append_spec f hs'
  obtain ⟨d', -, -, hd'⟩ := quicvarint.Append_matching f
  obtain ⟨enc', -, -, he', -⟩ := quicvarint.Append_enc f.SequenceNumber hs'
  refine ⟨⟨_, happ b⟩, ⟨_, wire.Length_spec f enc hlen⟩, ?_, by decide, hs', ?_, ?_, by decide,
    ?_, ?_⟩
  · by_cases hip : f.Address.Addr.Is4 = true <;> simp [hip] <;> decide
  · intro b1
    have := hd' b1
    unfold matchingDiscriminant at this
    rw [this]
    simp
  · intro b2
    rw [he' b2]
    simp
  · rw [hlen]
    simp
  · intro h4
    cases hip : f.Address.Addr with
    | zero => rw [hip] at h4; simp [Addr.Is4] at h4
    | ip4 a => simp [Addr.As4]
    | ip6 a z => rw [hip] at h4; simp [Addr.Is4] at h4

theorem Append_no_error_path_witness :
    testFrameIPv4.SequenceNumber ≤ 2 ^ 62 - 1 ∧
    ((∃ out, testFrameIPv4.Append [0x07] = some (out, none)) ∧
    (∃ n, testFrameIPv4.Length = some n) ∧
    (if testFrameIPv4.Address.Addr.Is4 then 0x9f81a6 else 0x9f81a7) ≤ quicvarint.maxVarInt8 ∧
    0x9f81a6 ≤ quicvarint.maxVarInt8 ∧
    testFrameIPv4.SequenceNumber ≤ quicvarint.maxVarInt8 ∧
    (∀ b1, quicvarint.Append b1
      (if testFrameIPv4.Address.Addr.Is4 then 0x9f81a6 else 0x9f81a7) ≠ none) ∧
    (∀ b2, quicvarint.Append b2 testFrameIPv4.SequenceNumber ≠ none) ∧
    quicvarint.Len 0x9f81a6 ≠ none ∧ quicvarint.Len testFrameIPv4.SequenceNumber ≠ none ∧
    (testFrameIPv4.Address.Addr.Is4 = true → testFrameIPv4.Address.Addr.As4 ≠ none)) :=
  ⟨by decide, Append_no_error_path testFrameIPv4 [0x07] (by decide)⟩

/-- Claim C14 (the assertions of the IPv6 test), evaluated on the test's own
frame [2001:db8::1]:8080 with sequence number 123: `Append(nil, f)` has 24
bytes, and `parseObservedAddressFrame(data[4:], 0x9f81a6)` returns no error,
the sequence number 123, the 4-byte address 32.1.13.184 with port 0 and the
count 8, neither the address of `f` nor `len(data)`. -/
theorem test_IPv6_parsed_as_IPv4 :
    testFrameIPv6.Append [] =
      some ([0x80, 0x9f, 0x81, 0xa7, 0x40, 0x7b, 0x20, 0x01, 0x0d, 0xb8, 0, 0, 0, 0, 0, 0,
        0, 0, 0, 0, 0, 1, 0x1f, 0x90], none) ∧
    sliceFrom [0x80, 0x9f, 0x81, 0xa7, 0x40, 0x7b, 0x20, 0x01, 0x0d, 0xb8, 0, 0, 0, 0, 0, 0,
        0, 0, 0, 0, 0, 1, 0x1f, 0x90] 4 =
      some [0x40, 0x7b, 0x20, 0x01, 0x0d, 0xb8, 0, 0, 0, 0, 0, 0, 0, 0, 0, 0, 0, 1,
        0x1f, 0x90] ∧
    parseObservedAddressFrame
        [0x40, 0x7b, 0x20, 0x01, 0x0d, 0xb8, 0, 0, 0, 0, 0, 0, 0, 0, 0, 0, 0, 1, 0x1f, 0x90]
        0x9f81a6 =
      some ⟨some ⟨123, ⟨Addr.ip4 ⟨[0x20, 0x01, 0x0d, 0xb8], rfl⟩, 0⟩⟩, 8, none⟩ ∧
    (⟨Addr.ip4 ⟨[0x20, 0x01, 0x0d, 0xb8], rfl⟩, 0⟩ : AddrPort) ≠ testFrameIPv6.Address ∧
    ((8 : Int) ≠
      (([0x80, 0x9f, 0x81, 0xa7, 0x40, 0x7b, 0x20, 0x01, 0x0d, 0xb8, 0, 0, 0, 0, 0, 0,
        0, 0, 0, 0, 0, 1, 0x1f, 0x90] : List Byte).length : Int)) := by
  refine ⟨by decide, by decide, by decide, by decide, by decide⟩

/-- Claim C15 (exact failure condition of parse): for every input `b` and every
discriminant `parseObservedAddressFrame` returns, and it returns an error
exactly when `b` is empty or `len(b) < w + a + 2`, where `w = 2^(b[0] >> 6)` is
the width announced by the first byte and `a` is 4 for the discriminant
`0x9f81a6` and 16 otherwise; an input with enough bytes is never rejected. -/
theorem parse_fails_iff_too_short (b : List Byte) (typ : Nat) :
    ∃ r, parseObservedAddressFrame b typ = some r ∧
      ((∃ e, r.err = some e) ↔
        (b = [] ∨ ∃ first t, b = first :: t ∧
          b.length < 2 ^ (first.val >>> 6) + (if typ = 0x9f81a6 then 4 else 16) + 2)) := by
  cases b with
  | nil => exact ⟨_, wire.parse_nil typ, ⟨fun _ => Or.inl rfl, fun _ => ⟨_, rfl⟩⟩⟩
  | cons first t =>
    have hw : quicvarint.width first = 2 ^ (first.val >>> 6) := rfl
    have ha : addrLen typ = if typ = 0x9f81a6 then 4 else 16 := rfl
    rw [wire.parse_cons, ← ha]
    by_cases h1 : (first :: t).length < quicvarint.width first
    · rw [if_pos h1]
      refine ⟨_, rfl, ⟨fun _ => Or.inr ⟨first, t, rfl, ?_⟩, fun _ => ⟨_, rfl⟩⟩⟩
      rw [← hw]
      omega
    · rw [if_neg h1]
      by_cases h2 : (first :: t).length < quicvarint.width first + addrLen typ + 2
      · rw [if_pos h2]
        refine ⟨_, rfl, ⟨fun _ => Or.inr ⟨first, t, rfl, ?_⟩, fun _ => ⟨_, rfl⟩⟩⟩
        rw [← hw]
        exact h2
      · rw [if_neg h2]
        refine ⟨_, rfl, ⟨fun h => ?_, fun h => ?_⟩⟩
        · obtain ⟨e, he⟩ := h
          simp at he
        · rcases h with h | ⟨first', t', hb, hlt⟩
          · simp at h
          · rw [List.cons.injEq] at hb
            obtain ⟨rfl, rfl⟩ := hb
            rw [← hw] at hlt
            exact absurd hlt h2

theorem quicvarint.byteAt_take_append (b x : List Byte) (n i : Nat) (hi : i < n)
    (hn : n ≤ b.length) :
    quicvarint.byteAt (b.take n ++ x) i = quicvarint.byteAt b i := by
  unfold quicvarint.byteAt
  have h1 : i < (b.take n).length := by rw [List.length_take]; omega
  rw [List.getD_eq_getElem?_getD, List.getD_eq_getElem?_getD,
    List.getElem?_append_left h1, List.getElem?_take_of_lt hi]

theorem take_drop_append (p y : List Byte) (i k : Nat) (h : i + k ≤ p.length) :
    List.take k (List.drop i (p ++ y)) = List.take k (List.drop i p) := by
  rw [List.drop_append_of_le_length (by omega),
    List.take_append_of_le_length (by rw [List.length_drop]; omega)]

theorem take_drop_take_append (b x : List Byte) (n i k : Nat) (h : i + k ≤ n)
    (hn : n ≤ b.length) :
    List.take k (List.drop i (b.take n ++ x)) = List.take k (List.drop i b) := by
  have hlen : (b.take n).length = n := by rw [List.length_take]; omega
  rw [take_drop_append _ _ _ _ (by omega)]
  conv_rhs => rw [← List.take_append_drop n b]
  rw [take_drop_append _ _ _ _ (by omega)]

theorem wire.portOf_take2 (l : List Byte) : portOf (l.take 2) = portOf l := by
  match l with
  | [] => rfl
  | [_] => rfl
  | _ :: _ :: _ => rfl

theorem wire.addrOf_take16 (typ : Nat) (l : List Byte) :
    addrOf typ (l.take 16) = addrOf typ l := by
  unfold addrOf
  rw [List.take_take, List.take_take]
  rfl

theorem quicvarint.byteAt_cons_take (first : Byte) (t x : List Byte) (m i : Nat) (hi : i < m + 1)
    (hm : m ≤ t.length) :
    quicvarint.byteAt (first :: (t.take m ++ x)) i = quicvarint.byteAt (first :: t) i :=
  quicvarint.byteAt_take_append (first :: t) x (m + 1) i hi (by simp; omega)

theorem quicvarint.Parse_cons_take (first : Byte) (t x : List Byte) (m : Nat)
    (hw : quicvarint.width first ≤ m + 1) (hm : m ≤ t.length) :
    quicvarint.Parse (first :: (t.take m ++ x)) = quicvarint.Parse (first :: t) := by
  have hl1 : (first :: (t.take m ++ x)).length = m + 1 + x.length := by
    simp only [List.length_cons, List.length_append, List.length_take]
    omega
  have hl2 : (first :: t).length = t.length + 1 := rfl
  rcases quicvarint.width_cases first with ⟨hq, hw'⟩ | ⟨hq, hw'⟩ | ⟨hq, hw'⟩ | ⟨hq, hw'⟩ <;>
    rw [hw'] at hw
  · simp [quicvarint.Parse, shr6, hq]
  · have c1 : ¬ (first :: (t.take m ++ x)).length < 2 := by omega
    have c2 : ¬ (first :: t).length < 2 := by omega
    simp only [quicvarint.Parse, shr6, hq, c1, c2, if_false, OfNat.ofNat_ne_zero, OfNat.ofNat_ne_one,
      one_ne_zero, if_true, quicvarint.byteAt_cons_take first t x m 1 (by omega) hm]
  · have c1 : ¬ (first :: (t.take m ++ x)).length < 4 := by omega
    have c2 : ¬ (first :: t).length < 4 := by omega
    simp only [quicvarint.Parse, shr6, hq, c1, c2, if_false, OfNat.ofNat_ne_zero, OfNat.ofNat_ne_one,
      if_true, quicvarint.byteAt_cons_take first t x m 1 (by omega) hm,
      quicvarint.byteAt_cons_take first t x m 2 (by omega) hm,
      quicvarint.byteAt_cons_take first t x m 3 (by omega) hm]
  · have c1 : ¬ (first :: (t.take m ++ x)).length < 8 := by omega
    have c2 : ¬ (first :: t).length < 8 := by omega
    have e3 : ¬ (3 = 0) := by decide
    have e31 : ¬ (3 = 1) := by decide
    have e32 : ¬ (3 = 2) := by decide
    simp only [quicvarint.Parse, shr6, hq, c1, c2, if_false, e3, e31, e32, quicvarint.beUint64,
      quicvarint.byteAt_cons_take first t x m 0 (by omega) hm,
      quicvarint.byteAt_cons_take first t x m 1 (by omega) hm,
      quicvarint.byteAt_cons_take first t x m 2 (by omega) hm,
      quicvarint.byteAt_cons_take first t x m 3 (by omega) hm,
      quicvarint.byteAt_cons_take first t x m 4 (by omega) hm,
      quicvarint.byteAt_cons_take first t x m 5 (by omega) hm,
      quicvarint.byteAt_cons_take first t x m 6 (by omega) hm,
      quicvarint.byteAt_cons_take first t x m 7 (by omega) hm]

theorem wire.addrOf_drop_take (b x : List Byte) (typ n w : Nat) (h : w + addrLen typ ≤ n)
    (hn : n ≤ b.length) :
    addrOf typ (List.drop w (b.take n ++ x)) = addrOf typ (List.drop w b) := by
  unfold addrOf
  rcases wire.addrLen_cases typ with ⟨ht, ha⟩ | ⟨ht, ha⟩
  · rw [if_pos ht, if_pos ht, take_drop_take_append b x n w 4 (by omega) hn]
  · rw [if_neg ht, if_neg ht, take_drop_take_append b x n w 16 (by omega) hn]

theorem wire.portOf_drop_take (b x : List Byte) (n j : Nat) (h : j + 2 ≤ n)
    (hn : n ≤ b.length) :
    portOf (List.drop j (b.take n ++ x)) = portOf (List.drop j b) := by
  rw [← wire.portOf_take2, take_drop_take_append b x n j 2 h hn, wire.portOf_take2]

/-- Claim C16 (trailing bytes do not interfere): when
`parseObservedAddressFrame` succeeds on `b` with the frame `f` and the count
`n`, then for every byte sequence `x` it also succeeds on the first `n` bytes
of `b` followed by `x`, with the same discriminant, and returns the same
frame `f` and the same count `n`. -/
theorem parse_ignores_trailing_bytes (b x : List Byte) (typ : Nat)
    (f : ObservedAddressFrame) (n : Nat)
    (h : parseObservedAddressFrame b typ = some ⟨some f, (n : Int), none⟩) :
    parseObservedAddressFrame (b.take n ++ x) typ = some ⟨some f, (n : Int), none⟩ := by
  cases b with
  | nil =>
    rw [wire.parse_nil] at h
    simp at h
  | cons first t =>
    rw [wire.parse_cons] at h
    by_cases h1 : (first :: t).length < quicvarint.width first
    · rw [if_pos h1] at h
      simp at h
    · rw [if_neg h1] at h
      by_cases h2 : (first :: t).length < quicvarint.width first + addrLen typ + 2
      · rw [if_pos h2] at h
        simp at h
      · rw [if_neg h2] at h
        simp only [Option.some.injEq, ParseResult.mk.injEq, Nat.cast_inj, and_true] at h
        obtain ⟨hf, hn⟩ := h
        have hlen : (first :: t).length = t.length + 1 := rfl
        have hw1 := quicvarint.width_values first
        obtain ⟨m, hm⟩ : ∃ m, n = m + 1 := ⟨n - 1, by omega⟩
        have hmt : m ≤ t.length := by omega
        have e : List.take n (first :: t) ++ x = first :: (t.take m ++ x) := by
          rw [hm]; rfl
        have hl : (first :: (t.take m ++ x)).length = m + 1 + x.length := by
          simp only [List.length_cons, List.length_append, List.length_take]
          omega
        have c1 : ¬ (first :: (t.take m ++ x)).length < quicvarint.width first := by omega
        have c2 : ¬ (first :: (t.take m ++ x)).length <
            quicvarint.width first + addrLen typ + 2 := by omega
        rw [e, wire.parse_cons, if_neg c1, if_neg c2,
          quicvarint.Parse_cons_take first t x m (by omega) hmt]
        have e' : first :: (t.take m ++ x) = List.take n (first :: t) ++ x := e.symm
        rw [e', wire.addrOf_drop_take (first :: t) x typ n _ (by omega) (by omega),
          wire.portOf_drop_take (first :: t) x n _ (by omega) (by omega), hf, hn]

theorem parse_ignores_trailing_bytes_witness :
    parseObservedAddressFrame [0x40, 0x05, 10, 0, 0, 1, 0, 80, 0xaa, 0xbb] 0x9f81a6 =
      some ⟨some ⟨5, ⟨Addr.ip4 ⟨[10, 0, 0, 1], rfl⟩, 80⟩⟩, ((8 : Nat) : Int), none⟩ ∧
    parseObservedAddressFrame
        (([0x40, 0x05, 10, 0, 0, 1, 0, 80, 0xaa, 0xbb] : List Byte).take 8 ++ [0xff, 0xff, 0xff])
        0x9f81a6 =
      some ⟨some ⟨5, ⟨Addr.ip4 ⟨[10, 0, 0, 1], rfl⟩, 80⟩⟩, ((8 : Nat) : Int), none⟩ :=
  ⟨by decide,
    parse_ignores_trailing_bytes [0x40, 0x05, 10, 0, 0, 1, 0, 80, 0xaa, 0xbb] [0xff, 0xff, 0xff]
      0x9f81a6 ⟨5, ⟨Addr.ip4 ⟨[10, 0, 0, 1], rfl⟩, 80⟩⟩ 8 (by decide)⟩

theorem wire.parse_other_discriminant (b : List Byte) (typ : Nat) (ht : typ ≠ 0x9f81a6) :
    parseObservedAddressFrame b typ = parseObservedAddressFrame b 0x9f81a7 := by
  have h1 : decide (typ = 0x9f81a6) = false := by simp [ht]
  have h2 : decide (0x9f81a7 = 0x9f81a6) = false := by decide
  unfold parseObservedAddressFrame
  simp only [h1, h2]

theorem wire.parse_success_shape (b : List Byte) (typ : Nat) (r : ParseResult)
    (f : ObservedAddressFrame) (h : parseObservedAddressFrame b typ = some r)
    (hf : r.frame = some f) :
    ∃ first t, b = first :: t ∧
      quicvarint.width first + addrLen typ + 2 ≤ b.length ∧
      f.SequenceNumber = (quicvarint.Parse b).1 ∧
      f.Address = AddrPortFrom (addrOf typ (b.drop (quicvarint.width first)))
        (portOf (b.drop (quicvarint.width first + addrLen typ))) ∧
      r.consumed = ((quicvarint.width first + addrLen typ + 2 : Nat) : Int) ∧
      r.err = none := by
  cases b with
  | nil =>
    rw [wire.parse_nil] at h
    cases h
    simp at hf
  | cons first t =>
    rw [wire.parse_cons] at h
    by_cases h1 : (first :: t).length < quicvarint.width first
    · rw [if_pos h1] at h
      cases h
      simp at hf
    · rw [if_neg h1] at h
      by_cases h2 : (first :: t).length < quicvarint.width first + addrLen typ + 2
      · rw [if_pos h2] at h
        cases h
        simp at hf
      · rw [if_neg h2] at h
        cases h
        simp only [Option.some.injEq] at hf
        subst hf
        exact ⟨first, t, rfl, by omega, rfl, rfl, rfl, rfl⟩

/-- Claim C17 (discriminant dispatch): `parseObservedAddressFrame` reads a
4-byte address (an `Is4` result, count `w + 4 + 2`) with the discriminant
`0x9f81a6`; for every other discriminant value, `0x9f81a7` or not, it does not
reject the value: it returns exactly what it returns for `0x9f81a7`, and on
success that is an `Is6` address and the count `w + 16 + 2`, with
`w = 2^(b[0] >> 6)`. -/
theorem parse_discriminant_dispatch (b : List Byte) (typ : Nat) (ht : typ ≠ 0x9f81a6) :
    parseObservedAddressFrame b typ = parseObservedAddressFrame b 0x9f81a7 ∧
    (∀ r f, parseObservedAddressFrame b typ = some r → r.frame = some f →
      f.Address.Addr.Is6 = true ∧ f.Address.Addr.Is4 = false ∧
      ∃ first t, b = first :: t ∧ r.consumed = ((2 ^ (first.val >>> 6) + 16 + 2 : Nat) : Int)) ∧
    (∀ r f, parseObservedAddressFrame b 0x9f81a6 = some r → r.frame = some f →
      f.Address.Addr.Is4 = true ∧
      ∃ first t, b = first :: t ∧ r.consumed = ((2 ^ (first.val >>> 6) + 4 + 2 : Nat) : Int)) := by
  refine ⟨wire.parse_other_discriminant b typ ht, ?_, ?_⟩
  · intro r f h hf
    obtain ⟨first, t, hb, -, -, ha, hc, -⟩ := wire.parse_success_shape b typ r f h hf
    have h16 : addrLen typ = 16 := by unfold addrLen; rw [if_neg ht]
    rw [h16] at hc
    refine ⟨?_, ?_, first, t, hb, hc⟩
    · rw [ha]; simp [AddrPortFrom, AddrPort.Addr, addrOf, ht, AddrFrom16, Addr.Is6]
    · rw [ha]; simp [AddrPortFrom, AddrPort.Addr, addrOf, ht, AddrFrom16, Addr.Is4]
  · intro r f h hf
    obtain ⟨first, t, hb, -, -, ha, hc, -⟩ := wire.parse_success_shape b 0x9f81a6 r f h hf
    refine ⟨?_, first, t, hb, hc⟩
    rw [ha]; simp [AddrPortFrom, AddrPort.Addr, addrOf, AddrFrom4, Addr.Is4]

theorem parse_discriminant_dispatch_witness :
    (0 : Nat) ≠ 0x9f81a6 ∧
    (parseObservedAddressFrame
        [0x05, 0, 0, 0, 0, 0, 0, 0, 0, 0, 0, 0xff, 0xff, 10, 0, 0, 1, 0, 80] 0 =
      parseObservedAddressFrame
        [0x05, 0, 0, 0, 0, 0, 0, 0, 0, 0, 0, 0xff, 0xff, 10, 0, 0, 1, 0, 80] 0x9f81a7 ∧
    (∀ r f, parseObservedAddressFrame
        [0x05, 0, 0, 0, 0, 0, 0, 0, 0, 0, 0, 0xff, 0xff, 10, 0, 0, 1, 0, 80] 0 = some r →
      r.frame = some f →
      f.Address.Addr.Is6 = true ∧ f.Address.Addr.Is4 = false ∧
      ∃ first t,
        ([0x05, 0, 0, 0, 0, 0, 0, 0, 0, 0, 0, 0xff, 0xff, 10, 0, 0, 1, 0, 80] : List Byte) =
          first :: t ∧
        r.consumed = ((2 ^ (first.val >>> 6) + 16 + 2 : Nat) : Int)) ∧
    (∀ r f, parseObservedAddressFrame
        [0x05, 0, 0, 0, 0, 0, 0, 0, 0, 0, 0, 0xff, 0xff, 10, 0, 0, 1, 0, 80] 0x9f81a6 = some r →
      r.frame = some f →
      f.Address.Addr.Is4 = true ∧
      ∃ first t,
        ([0x05, 0, 0, 0, 0, 0, 0, 0, 0, 0, 0, 0xff, 0xff, 10, 0, 0, 1, 0, 80] : List Byte) =
          first :: t ∧
        r.consumed = ((2 ^ (first.val >>> 6) + 4 + 2 : Nat) : Int))) :=
  ⟨by decide,
    parse_discriminant_dispatch
      [0x05, 0, 0, 0, 0, 0, 0, 0, 0, 0, 0, 0xff, 0xff, 10, 0, 0, 1, 0, 80] 0 (by decide)⟩

/-- Claim C18 (parsed frames are always serialisable): whenever
`parseObservedAddressFrame` returns a frame, its SequenceNumber is at most
`2^62 - 1`, so `Append` on any buffer and `Length` return for that frame (the
varint primitive is called inside its domain) and `Append` gives a nil error. -/
theorem parsed_frame_is_serialisable (b : List Byte) (typ : Nat) (r : ParseResult)
    (f : ObservedAddressFrame) (h : parseObservedAddressFrame b typ = some r)
    (hf : r.frame = some f) :
    f.SequenceNumber ≤ 2 ^ 62 - 1 ∧
    (∀ b1, ∃ out, f.Append b1 = some (out, none)) ∧
    (∃ n, f.Length = some n) ∧
    quicvarint.Len f.SequenceNumber ≠ none ∧
    (∀ b2, quicvarint.Append b2 f.SequenceNumber ≠ none) := by
  obtain ⟨first, t, hb, hlen, hseq, -, -, -⟩ := wire.parse_success_shape b typ r f h hf
  subst hb
  have hw := quicvarint.width_values first
  obtain ⟨v, hv, hmax⟩ := quicvarint.Parse_ok first t (by omega)
  rw [hv] at hseq
  have hs : f.SequenceNumber ≤ quicvarint.maxVarInt8 := by rw [hseq]; exact hmax
  obtain ⟨d, enc, -, -, -, hl, -, happ⟩ := wire.Append_spec f hs
  obtain ⟨enc', -, -, he', -⟩ := quicvarint.Append_enc f.SequenceNumber hs
  refine ⟨(quicvarint.le_max_iff _).2 hs, fun b1 => ⟨_, happ b1⟩,
    ⟨_, wire.Length_spec f enc hl⟩, ?_, ?_⟩
  · rw [hl]; simp
  · intro b2
    rw [he' b2]; simp

theorem parsed_frame_is_serialisable_witness :
    parseObservedAddressFrame (List.replicate 14 (0xff : Byte)) 0x9f81a6 =
      some ⟨some ⟨2 ^ 62 - 1, ⟨Addr.ip4 ⟨[255, 255, 255, 255], rfl⟩, 65535⟩⟩, 14, none⟩ ∧
    (⟨some ⟨2 ^ 62 - 1, ⟨Addr.ip4 ⟨[255, 255, 255, 255], rfl⟩, 65535⟩⟩, 14, none⟩ :
      ParseResult).frame =
      some ⟨2 ^ 62 - 1, ⟨Addr.ip4 ⟨[255, 255, 255, 255], rfl⟩, 65535⟩⟩ ∧
    ((⟨2 ^ 62 - 1, ⟨Addr.ip4 ⟨[255, 255, 255, 255], rfl⟩, 65535⟩⟩ :
        ObservedAddressFrame).SequenceNumber ≤ 2 ^ 62 - 1 ∧
    (∀ b1, ∃ out, (⟨2 ^ 62 - 1, ⟨Addr.ip4 ⟨[255, 255, 255, 255], rfl⟩, 65535⟩⟩ :
        ObservedAddressFrame).Append b1 = some (out, none)) ∧
    (∃ n, (⟨2 ^ 62 - 1, ⟨Addr.ip4 ⟨[255, 255, 255, 255], rfl⟩, 65535⟩⟩ :
        ObservedAddressFrame).Length = some n) ∧
    quicvarint.Len (⟨2 ^ 62 - 1, ⟨Addr.ip4 ⟨[255, 255, 255, 255], rfl⟩, 65535⟩⟩ :
        ObservedAddressFrame).SequenceNumber ≠ none ∧
    (∀ b2, quicvarint.Append b2
      (⟨2 ^ 62 - 1, ⟨Addr.ip4 ⟨[255, 255, 255, 255], rfl⟩, 65535⟩⟩ :
        ObservedAddressFrame).SequenceNumber ≠ none)) :=
  ⟨by decide, rfl,
    parsed_frame_is_serialisable (List.replicate 14 (0xff : Byte)) 0x9f81a6
      ⟨some ⟨2 ^ 62 - 1, ⟨Addr.ip4 ⟨[255, 255, 255, 255], rfl⟩, 65535⟩⟩, 14, none⟩
      ⟨2 ^ 62 - 1, ⟨Addr.ip4 ⟨[255, 255, 255, 255], rfl⟩, 65535⟩⟩ (by decide) rfl⟩

/-! ## Decoding, then encoding again -/

theorem quicvarint.Append_1 (i : Nat) (h : i ≤ 63) :
    quicvarint.Append [] i = some [uint8 i] := by
  simp [quicvarint.Append, quicvarint.maxVarInt1, h]

theorem quicvarint.Append_2 (i : Nat) (h1 : 63 < i) (h2 : i ≤ 16383) :
    quicvarint.Append [] i = some [uint8 ((uint8 (i >>> 8)).val ||| 0x40), uint8 i] := by
  have n1 : ¬ i ≤ 63 := by omega
  simp [quicvarint.Append, quicvarint.maxVarInt1, quicvarint.maxVarInt2, n1, h2]

theorem quicvarint.Append_4 (i : Nat) (h1 : 16383 < i) (h2 : i ≤ 1073741823) :
    quicvarint.Append [] i = some [uint8 ((uint8 (i >>> 24)).val ||| 0x80), uint8 (i >>> 16),
      uint8 (i >>> 8), uint8 i] := by
  have n1 : ¬ i ≤ 63 := by omega
  have n2 : ¬ i ≤ 16383 := by omega
  simp [quicvarint.Append, quicvarint.maxVarInt1, quicvarint.maxVarInt2, quicvarint.maxVarInt4,
    n1, n2, h2]

theorem quicvarint.Append_8 (i : Nat) (h1 : 1073741823 < i) (h2 : i ≤ 4611686018427387903) :
    quicvarint.Append [] i = some [uint8 ((uint8 (i >>> 56)).val ||| 0xc0), uint8 (i >>> 48),
      uint8 (i >>> 40), uint8 (i >>> 32), uint8 (i >>> 24), uint8 (i >>> 16), uint8 (i >>> 8),
      uint8 i] := by
  have n1 : ¬ i ≤ 63 := by omega
  have n2 : ¬ i ≤ 16383 := by omega
  have n4 : ¬ i ≤ 1073741823 := by omega
  simp [quicvarint.Append, quicvarint.maxVarInt1, quicvarint.maxVarInt2, quicvarint.maxVarInt4,
    quicvarint.maxVarInt8, n1, n2, n4, h2]

theorem quicvarint.Append_length_le (i : Nat) (h : i ≤ quicvarint.maxVarInt8) (w : Nat)
    (hw : w = 1 ∧ i ≤ 63 ∨ w = 2 ∧ i ≤ 16383 ∨ w = 4 ∧ i ≤ 1073741823 ∨ w = 8) :
    ∃ enc, quicvarint.Append [] i = some enc ∧ enc.length ≤ w := by
  unfold quicvarint.maxVarInt8 at h
  by_cases h1 : i ≤ 63
  · exact ⟨_, quicvarint.Append_1 i h1, by simp; omega⟩
  by_cases h2 : i ≤ 16383
  · exact ⟨_, quicvarint.Append_2 i (by omega) h2, by simp; omega⟩
  by_cases h4 : i ≤ 1073741823
  · exact ⟨_, quicvarint.Append_4 i (by omega) h4, by simp; omega⟩
  · exact ⟨_, quicvarint.Append_8 i (by omega) h, by simp; omega⟩

theorem quicvarint.reencode_w1 (first : Byte) (hq : first.val / 64 = 0) :
    quicvarint.Append [] (first.val % 64) = some [first] := by
  have hf := first.isLt
  rw [quicvarint.Append_1 _ (by omega)]
  have e : uint8 (first.val % 64) = first := Fin.ext (by rw [uint8_val]; omega)
  rw [e]

theorem quicvarint.reencode_w2 (first b1 : Byte) (hq : first.val / 64 = 1) :
    ∃ enc, quicvarint.Append [] (b1.val + first.val % 64 * 256) = some enc ∧
      enc.length ≤ 2 ∧ (enc.length = 2 → enc = [first, b1]) := by
  have hf := first.isLt
  have h1 := b1.isLt
  by_cases c1 : b1.val + first.val % 64 * 256 ≤ 63
  · exact ⟨_, quicvarint.Append_1 _ c1, by simp, by simp⟩
  · refine ⟨_, quicvarint.Append_2 _ (by omega) (by omega), by simp, fun _ => ?_⟩
    have e0 : uint8 ((uint8 ((b1.val + first.val % 64 * 256) >>> 8)).val ||| 0x40) = first := by
      apply Fin.ext
      rw [uint8_val, uint8_val, Nat.shiftRight_eq_div_pow, or_40 _ (by omega)]
      omega
    have e1 : uint8 (b1.val + first.val % 64 * 256) = b1 := Fin.ext (by rw [uint8_val]; omega)
    rw [e0, e1]

theorem quicvarint.reencode_w4 (first b1 b2 b3 : Byte) (hq : first.val / 64 = 2) :
    ∃ enc, quicvarint.Append []
        (b3.val + b2.val * 256 + b1.val * 65536 + first.val % 64 * 16777216) = some enc ∧
      enc.length ≤ 4 ∧ (enc.length = 4 → enc = [first, b1, b2, b3]) := by
  have hf := first.isLt
  have h1 := b1.isLt
  have h2 := b2.isLt
  have h3 := b3.isLt
  generalize hv : b3.val + b2.val * 256 + b1.val * 65536 + first.val % 64 * 16777216 = v
  by_cases c1 : v ≤ 63
  · exact ⟨_, quicvarint.Append_1 _ c1, by simp, by simp⟩
  by_cases c2 : v ≤ 16383
  · exact ⟨_, quicvarint.Append_2 _ (by omega) c2, by simp, by simp⟩
  · refine ⟨_, quicvarint.Append_4 _ (by omega) (by omega), by simp, fun _ => ?_⟩
    have e0 : uint8 ((uint8 (v >>> 24)).val ||| 0x80) = first := by
      apply Fin.ext
      rw [uint8_val, uint8_val, Nat.shiftRight_eq_div_pow, or_80 _ (by omega)]
      omega
    have e1 : uint8 (v >>> 16) = b1 :=
      Fin.ext (by rw [uint8_val, Nat.shiftRight_eq_div_pow]; omega)
    have e2 : uint8 (v >>> 8) = b2 :=
      Fin.ext (by rw [uint8_val, Nat.shiftRight_eq_div_pow]; omega)
    have e3 : uint8 v = b3 := Fin.ext (by rw [uint8_val]; omega)
    rw [e0, e1, e2, e3]

theorem quicvarint.reencode_w8 (b0 b1 b2 b3 b4 b5 b6 b7 : Byte) (hq : b0.val / 64 = 3) :
    ∃ enc, quicvarint.Append []
        ((b7.val + b6.val * 2 ^ 8 + b5.val * 2 ^ 16 + b4.val * 2 ^ 24 + b3.val * 2 ^ 32 +
          b2.val * 2 ^ 40 + b1.val * 2 ^ 48 + b0.val * 2 ^ 56) % 4611686018427387904) =
        some enc ∧
      enc.length ≤ 8 ∧ (enc.length = 8 → enc = [b0, b1, b2, b3, b4, b5, b6, b7]) := by
  have h0 := b0.isLt
  have h1 := b1.isLt
  have h2 := b2.isLt
  have h3 := b3.isLt
  have h4 := b4.isLt
  have h5 := b5.isLt
  have h6 := b6.isLt
  have h7 := b7.isLt
  generalize hv : (b7.val + b6.val * 2 ^ 8 + b5.val * 2 ^ 16 + b4.val * 2 ^ 24 +
    b3.val * 2 ^ 32 + b2.val * 2 ^ 40 + b1.val * 2 ^ 48 + b0.val * 2 ^ 56) %
      4611686018427387904 = v
  by_cases c1 : v ≤ 63
  · exact ⟨_, quicvarint.Append_1 _ c1, by simp, by simp⟩
  by_cases c2 : v ≤ 16383
  · exact ⟨_, quicvarint.Append_2 _ (by omega) c2, by simp, by simp⟩
  by_cases c4 : v ≤ 1073741823
  · exact ⟨_, quicvarint.Append_4 _ (by omega) c4, by simp, by simp⟩
  · refine ⟨_, quicvarint.Append_8 _ (by omega) (by omega), by simp, fun _ => ?_⟩
    have e0 : uint8 ((uint8 (v >>> 56)).val ||| 0xc0) = b0 := by
      apply Fin.ext
      rw [uint8_val, uint8_val, Nat.shiftRight_eq_div_pow, or_c0 _ (by omega)]
      omega
    have e1 : uint8 (v >>> 48) = b1 :=
      Fin.ext (by rw [uint8_val, Nat.shiftRight_eq_div_pow]; omega)
    have e2 : uint8 (v >>> 40) = b2 :=
      Fin.ext (by rw [uint8_val, Nat.shiftRight_eq_div_pow]; omega)
    have e3 : uint8 (v >>> 32) = b3 :=
      Fin.ext (by rw [uint8_val, Nat.shiftRight_eq_div_pow]; omega)
    have e4 : uint8 (v >>> 24) = b4 :=
      Fin.ext (by rw [uint8_val, Nat.shiftRight_eq_div_pow]; omega)
    have e5 : uint8 (v >>> 16) = b5 :=
      Fin.ext (by rw [uint8_val, Nat.shiftRight_eq_div_pow]; omega)
    have e6 : uint8 (v >>> 8) = b6 :=
      Fin.ext (by rw [uint8_val, Nat.shiftRight_eq_div_pow]; omega)
    have e7 : uint8 v = b7 := Fin.ext (by rw [uint8_val]; omega)
    rw [e0, e1, e2, e3, e4, e5, e6, e7]

theorem quicvarint.reencode (first : Byte) (t : List Byte)
    (h : quicvarint.width first ≤ (first :: t).length) :
    ∃ enc, quicvarint.Append [] (quicvarint.Parse (first :: t)).1 = some enc ∧
      enc.length ≤ quicvarint.width first ∧
      (enc.length = quicvarint.width first →
        enc = (first :: t).take (quicvarint.width first)) := by
  rcases quicvarint.width_cases first with ⟨hq, hw⟩ | ⟨hq, hw⟩ | ⟨hq, hw⟩ | ⟨hq, hw⟩ <;>
    rw [hw] at h ⊢
  · rw [quicvarint.Parse_w1 first t hq]
    exact ⟨_, quicvarint.reencode_w1 first hq, by simp, fun _ => by simp⟩
  · match t, h with
    | b1 :: t', _ =>
      rw [quicvarint.Parse_w2 first b1 t' hq]
      obtain ⟨enc, h1, h2, h3⟩ := quicvarint.reencode_w2 first b1 hq
      exact ⟨enc, h1, h2, fun hl => by rw [h3 hl]; simp⟩
  · match t, h with
    | b1 :: b2 :: b3 :: t', _ =>
      rw [quicvarint.Parse_w4 first b1 b2 b3 t' hq]
      obtain ⟨enc, h1, h2, h3⟩ := quicvarint.reencode_w4 first b1 b2 b3 hq
      exact ⟨enc, h1, h2, fun hl => by rw [h3 hl]; simp⟩
  · match t, h with
    | b1 :: b2 :: b3 :: b4 :: b5 :: b6 :: b7 :: t', _ =>
      rw [quicvarint.Parse_w8 first b1 b2 b3 b4 b5 b6 b7 t' hq]
      obtain ⟨enc, h1, h2, h3⟩ := quicvarint.reencode_w8 first b1 b2 b3 b4 b5 b6 b7 hq
      exact ⟨enc, h1, h2, fun hl => by rw [h3 hl]; simp⟩

theorem copyArr_val_of_length (n : Nat) (l : List Byte) (h : l.length = n) :
    (copyArr n l).val = l := by
  simp only [copyArr]
  exact List.take_left' h

theorem wire.rawAddr_addrOf (typ : Nat) (l : List Byte) (h : addrLen typ ≤ l.length) :
    rawAddr (addrOf typ l) = l.take (addrLen typ) := by
  rcases wire.addrLen_cases typ with ⟨ht, ha⟩ | ⟨ht, ha⟩
  · rw [ha] at h ⊢
    unfold addrOf
    rw [if_pos ht]
    exact copyArr_val_of_length 4 _ (by rw [List.length_take]; omega)
  · rw [ha] at h ⊢
    unfold addrOf
    rw [if_neg ht]
    exact copyArr_val_of_length 16 _ (by rw [List.length_take]; omega)

theorem wire.Put_portOf (l : List Byte) (h : 2 ≤ l.length) :
    binary.BigEndianPutUint16 (portOf l) = l.take 2 := by
  match l, h with
  | b0 :: b1 :: t, _ =>
    have h0 := b0.isLt
    have h1 : b1.val < 2 ^ 8 := b1.isLt
    have hv : (portOf (b0 :: b1 :: t)).val = b1.val + b0.val * 256 := by
      simp only [portOf, quicvarint.byteAt, List.getD_cons_succ, List.getD_cons_zero, uint16_val]
      rw [or_shl_eq_add _ _ 8 h1]
      omega
    have e0 : uint8 ((portOf (b0 :: b1 :: t)).val >>> 8) = b0 :=
      Fin.ext (by rw [uint8_val, hv, Nat.shiftRight_eq_div_pow]; omega)
    have e1 : uint8 (portOf (b0 :: b1 :: t)).val = b1 :=
      Fin.ext (by rw [uint8_val, hv]; omega)
    simp only [binary.BigEndianPutUint16, e0, e1]
    rfl

theorem take_three_parts (b : List Byte) (w a : Nat) :
    b.take (w + a + 2) = b.take w ++ (b.drop w).take a ++ (b.drop (w + a)).take 2 := by
  rw [List.take_add, List.take_add]

/-- Claim C19 (re-serialisation of a parsed frame): when
`parseObservedAddressFrame` succeeds on `b` with the frame `f` and the count
`n` (for any discriminant, `0x9f81a6` and `0x9f81a7` among them), `Length(f)`
and `Append(nil, f)` return, `Length(f) - 4 <= n`, and the bytes of
`Append(nil, f)` after the first four are the first `n` bytes of `b`
exactly when `Length(f) - 4 = n`, that is when the sequence number in `b` is
minimally encoded: the width `2^(b[0] >> 6)` announced in `b` is the varint
length of the SequenceNumber. -/
theorem reserialise_parsed_frame (b : List Byte) (typ : Nat) (f : ObservedAddressFrame)
    (n : Nat) (h : parseObservedAddressFrame b typ = some ⟨some f, (n : Int), none⟩) :
    ∃ m data sl first t,
      f.Length = some (m + 4) ∧ f.Append [] = some (data, none) ∧
      m ≤ n ∧ (data.drop 4 = b.take n ↔ m = n) ∧
      b = first :: t ∧ quicvarint.Len f.SequenceNumber = some sl ∧
      (m = n ↔ sl = 2 ^ (first.val >>> 6)) := by
  obtain ⟨first, t, hb, hlen, hseq, haddr, hc, -⟩ :=
    wire.parse_success_shape b typ _ f h rfl
  simp only [Nat.cast_inj] at hc
  have hwv := quicvarint.width_values first
  have hwl : quicvarint.width first ≤ (first :: t).length := by rw [← hb]; omega
  obtain ⟨v, hv, hmax⟩ := quicvarint.Parse_ok first t hwl
  obtain ⟨enc, he, hle, heq⟩ := quicvarint.reencode first t hwl
  rw [← hb] at he heq hv
  rw [← hseq] at he
  have hs : f.SequenceNumber ≤ quicvarint.maxVarInt8 := by rw [hseq, hv]; exact hmax
  obtain ⟨d, enc', -, hd, he', hl', -, happ⟩ := wire.Append_spec f hs
  rw [he] at he'
  cases he'
  have hraw : rawAddr f.Address.Addr =
      (b.drop (quicvarint.width first)).take (addrLen typ) := by
    rw [haddr]
    exact wire.rawAddr_addrOf typ _ (by rw [List.length_drop]; omega)
  have hport : binary.BigEndianPutUint16 f.Address.Port =
      (b.drop (quicvarint.width first + addrLen typ)).take 2 := by
    rw [haddr]
    exact wire.Put_portOf _ (by rw [List.length_drop]; omega)
  have hrl : (rawAddr f.Address.Addr).length = addrLen typ := by
    rw [hraw, List.length_take, List.length_drop]; omega
  have hpl : (binary.BigEndianPutUint16 f.Address.Port).length = 2 := rfl
  have htl : (b.take (quicvarint.width first)).length = quicvarint.width first := by
    rw [List.length_take]; omega
  have hdrop : List.drop 4 ([] ++ d ++ enc ++ rawAddr f.Address.Addr ++
      binary.BigEndianPutUint16 f.Address.Port) =
      enc ++ rawAddr f.Address.Addr ++ binary.BigEndianPutUint16 f.Address.Port := by
    rw [List.nil_append, List.append_assoc, List.append_assoc, ← hd, List.drop_left,
      ← List.append_assoc]
  have hL : f.Length = some (enc.length + addrLen typ + 2 + 4) := by
    rw [wire.Length_spec f enc hl', hrl]
    congr 1
    omega
  have hw2 : quicvarint.width first = 2 ^ (first.val >>> 6) := rfl
  refine ⟨enc.length + addrLen typ + 2, _, enc.length, first, t, hL, happ [], ?_, ?_, hb, hl',
    ?_⟩
  · rw [hc]; omega
  · rw [hdrop, hc, take_three_parts, ← hraw, ← hport]
    constructor
    · intro hE
      have := congrArg List.length hE
      simp only [List.length_append, hrl, hpl, htl] at this
      omega
    · intro hL
      have hel : enc.length = quicvarint.width first := by omega
      rw [heq hel]
  · rw [hc, ← hw2]
    omega

theorem reserialise_parsed_frame_witness :
    parseObservedAddressFrame [0x40, 0x05, 10, 0, 0, 1, 0, 80, 0xaa, 0xbb] 0x9f81a6 =
      some ⟨some ⟨5, ⟨Addr.ip4 ⟨[10, 0, 0, 1], rfl⟩, 80⟩⟩, ((8 : Nat) : Int), none⟩ ∧
    ∃ m data sl first t,
      (⟨5, ⟨Addr.ip4 ⟨[10, 0, 0, 1], rfl⟩, 80⟩⟩ : ObservedAddressFrame).Length =
        some (m + 4) ∧
      (⟨5, ⟨Addr.ip4 ⟨[10, 0, 0, 1], rfl⟩, 80⟩⟩ : ObservedAddressFrame).Append [] =
        some (data, none) ∧
      m ≤ 8 ∧
      (data.drop 4 = ([0x40, 0x05, 10, 0, 0, 1, 0, 80, 0xaa, 0xbb] : List Byte).take 8 ↔
        m = 8) ∧
      ([0x40, 0x05, 10, 0, 0, 1, 0, 80, 0xaa, 0xbb] : List Byte) = first :: t ∧
      quicvarint.Len (⟨5, ⟨Addr.ip4 ⟨[10, 0, 0, 1], rfl⟩, 80⟩⟩ :
        ObservedAddressFrame).SequenceNumber = some sl ∧
      (m = 8 ↔ sl = 2 ^ (first.val >>> 6)) :=
  ⟨by decide,
    reserialise_parsed_frame [0x40, 0x05, 10, 0, 0, 1, 0, 80, 0xaa, 0xbb] 0x9f81a6
      ⟨5, ⟨Addr.ip4 ⟨[10, 0, 0, 1], rfl⟩, 80⟩⟩ 8 (by decide)⟩

theorem wire.parsed16_facts (ip : Addr) (port : Fin 65536) (h4 : ip.Is4 = false) :
    (AddrFrom16 ip.As16).Is4 = false ∧ (AddrFrom16 ip.As16).Is6 = true ∧
    (AddrFrom16 ip.As16).Zone = "" ∧
    (ip.Is6 = true → ip.Zone = "" →
      AddrPortFrom (AddrFrom16 ip.As16) port = ⟨ip, port⟩ ∧
      (AddrFrom16 ip.As16).Is4In6 = ip.Is4In6) ∧
    (ip.Zone ≠ "" → AddrPortFrom (AddrFrom16 ip.As16) port ≠ ⟨ip, port⟩) ∧
    (ip = Addr.zero →
      AddrPortFrom (AddrFrom16 ip.As16) port ≠ ⟨ip, port⟩ ∧
      AddrFrom16 ip.As16 = Addr.ip6 ⟨List.replicate 16 0, rfl⟩ "") := by
  cases ip with
  | ip4 a => simp [Addr.Is4] at h4
  | zero =>
    refine ⟨rfl, rfl, rfl, fun h => ?_, fun h => ?_, fun _ => ⟨?_, rfl⟩⟩
    · simp [Addr.Is6] at h
    · simp [Addr.Zone] at h
    · simp [AddrPortFrom, AddrFrom16]
  | ip6 a z =>
    refine ⟨rfl, rfl, rfl, fun _ hz => ?_, fun hz => ?_, fun h => ?_⟩
    · simp only [Addr.Zone] at hz
      subst hz
      exact ⟨rfl, rfl⟩
    · simp only [Addr.Zone] at hz
      simp only [AddrPortFrom, AddrFrom16, Addr.As16, ne_eq, AddrPort.mk.injEq, Addr.ip6.injEq,
        true_and, and_true]
      exact fun h => hz h.symm
    · simp at h

/-- Claim C20 (addresses that are not plain 4-byte addresses): every frame with
SequenceNumber at most `2^62 - 1` whose address is not `Is4` is serialised in
the 16-byte family: `Append(nil, f)` begins with `0x80 0x9f 0x81 0xa7`, and
parsing the bytes after these four with `0x9f81a7` succeeds with the
SequenceNumber and port of `f` and the address `AddrFrom16(As16())`, which is
not `Is4` and has no zone. For an IPv6 address without zone, an IPv4-mapped
one included, that is the address of `f` (it stays IPv4-mapped, in the 16-byte
family); for an address with a zone, and for the zero address, the parsed
address differs from the original (the zone is gone; the zero address has
become `::`). -/
theorem non_IPv4_address_serialised_as_IPv6 (f : ObservedAddressFrame)
    (hs : f.SequenceNumber ≤ 2 ^ 62 - 1) (h4 : f.Address.Addr.Is4 = false) :
    ∃ data body parsed n,
      f.Append [] = some (data, none) ∧ [0x80, 0x9f, 0x81, 0xa7] <+: data ∧
      sliceFrom data 4 = some body ∧
      parseObservedAddressFrame body 0x9f81a7 = some ⟨some parsed, n, none⟩ ∧
      parsed.SequenceNumber = f.SequenceNumber ∧ parsed.Address.Port = f.Address.Port ∧
      parsed.Address.Addr = AddrFrom16 f.Address.Addr.As16 ∧
      parsed.Address.Addr.Is4 = false ∧ parsed.Address.Addr.Is6 = true ∧
      parsed.Address.Addr.Zone = "" ∧
      (f.Address.Addr.Is6 = true → f.Address.Addr.Zone = "" →
        parsed.Address = f.Address ∧
        parsed.Address.Addr.Is4In6 = f.Address.Addr.Is4In6) ∧
      (f.Address.Addr.Zone ≠ "" → parsed.Address ≠ f.Address) ∧
      (f.Address.Addr = Addr.zero →
        parsed.Address ≠ f.Address ∧
        parsed.Address.Addr = Addr.ip6 ⟨List.replicate 16 0, rfl⟩ "") := by
  have hs' := (quicvarint.le_max_iff _).1 hs
  obtain ⟨d, enc, hd, -, -, happ, hparse⟩ := wire.roundtrip_spec f hs' []
  obtain ⟨d', enc', hd', -, -, -, -, happ'⟩ := wire.Append_spec f hs'
  have hnot : ¬ f.Address.Addr.Is4 = true := by rw [h4]; decide
  unfold matchingDiscriminant at hd' hparse
  rw [if_neg hnot] at hd' hparse
  rw [quicvarint.Append_disc6] at hd'
  cases hd'
  have hdata : d ++ enc ++ rawAddr f.Address.Addr ++ binary.BigEndianPutUint16 f.Address.Port =
      [] ++ ([] ++ [0x80, 0x9f, 0x81, 0xa7]) ++ enc' ++ rawAddr f.Address.Addr ++
        binary.BigEndianPutUint16 f.Address.Port := by
    have := happ.symm.trans (happ' [])
    simpa using this
  obtain ⟨h1, h2, h3, h5, h6, h7⟩ := wire.parsed16_facts f.Address.Addr f.Address.Port h4
  refine ⟨_, _, _, _, happ, ?_, ?_, hparse, rfl, rfl, ?_, ?_, ?_, ?_, ?_, ?_, ?_⟩
  · rw [hdata]
    exact ⟨enc' ++ rawAddr f.Address.Addr ++ binary.BigEndianPutUint16 f.Address.Port,
      by simp⟩
  · rw [wire.append_body, ← hd]
    exact sliceFrom_append_left _ _
  · show (if f.Address.Addr.Is4 = true then f.Address.Addr
      else AddrFrom16 f.Address.Addr.As16) = _
    rw [if_neg hnot]
  · show (if f.Address.Addr.Is4 = true then f.Address.Addr
      else AddrFrom16 f.Address.Addr.As16).Is4 = _
    rw [if_neg hnot, h1]
  · show (if f.Address.Addr.Is4 = true then f.Address.Addr
      else AddrFrom16 f.Address.Addr.As16).Is6 = _
    rw [if_neg hnot, h2]
  · show (if f.Address.Addr.Is4 = true then f.Address.Addr
      else AddrFrom16 f.Address.Addr.As16).Zone = _
    rw [if_neg hnot, h3]
  · intro a b
    simp only [if_neg hnot]
    exact h5 a b
  · intro a
    simp only [if_neg hnot]
    exact h6 a
  · intro a
    simp only [if_neg hnot]
    exact h7 a

theorem non_IPv4_address_serialised_as_IPv6_witness :
    zonedFrame.SequenceNumber ≤ 2 ^ 62 - 1 ∧ zonedFrame.Address.Addr.Is4 = false ∧
    ∃ data body parsed n,
      zonedFrame.Append [] = some (data, none) ∧ [0x80, 0x9f, 0x81, 0xa7] <+: data ∧
      sliceFrom data 4 = some body ∧
      parseObservedAddressFrame body 0x9f81a7 = some ⟨some parsed, n, none⟩ ∧
      parsed.SequenceNumber = zonedFrame.SequenceNumber ∧
      parsed.Address.Port = zonedFrame.Address.Port ∧
      parsed.Address.Addr = AddrFrom16 zonedFrame.Address.Addr.As16 ∧
      parsed.Address.Addr.Is4 = false ∧ parsed.Address.Addr.Is6 = true ∧
      parsed.Address.Addr.Zone = "" ∧
      (zonedFrame.Address.Addr.Is6 = true → zonedFrame.Address.Addr.Zone = "" →
        parsed.Address = zonedFrame.Address ∧
        parsed.Address.Addr.Is4In6 = zonedFrame.Address.Addr.Is4In6) ∧
      (zonedFrame.Address.Addr.Zone ≠ "" → parsed.Address ≠ zonedFrame.Address) ∧
      (zonedFrame.Address.Addr = Addr.zero →
        parsed.Address ≠ zonedFrame.Address ∧
        parsed.Address.Addr = Addr.ip6 ⟨List.replicate 16 0, rfl⟩ "") :=
  ⟨by decide, by decide, non_IPv4_address_serialised_as_IPv6 zonedFrame (by decide) (by decide)⟩
